import Mathlib

/-!
# SHA-256 (`sha_256.c`): a shallow embedding and its verification

Conventions of the embedding.

* `uint8_t`, `uint32_t`, `uint64_t` and `size_t` values are natural numbers; every
  operation that can leave the range of its C type is followed by an explicit
  `% 2 ^ w` (`size_t` is 64 bits wide, `int` and `unsigned int` are 32 bits wide).
* `int` values are integers (`Int`).
* Heap buffers (`input`, `pre_processed`, the `word_array` pointer) are lists of
  bytes/words; a read or write outside the buffer has no defined result in C and
  is `none` here, so every function that touches such a buffer returns an `Option`.
* The local, fixed-size arrays (`words[64]`, `byteArrayOfInputSize[8]`,
  `ROUND_CONSTANTS[64]`) are lists indexed with `List.getD`/`List.set`.
* A `for` loop is a fold over the list of the values its counter takes.
* C strings are `String`s and `strcat` is concatenation in `digest` and `sha_256`; the
  buffers that hold them are modelled byte by byte in `digestBuf`, `toHexBuf` and `main`.
-/

namespace Sha256

/-! ## Machine arithmetic -/

/-- Sum of two `uint32_t` values (`a + b` in C, wrapping at `2^32`). -/
def add32 (a b : Nat) : Nat := (a + b) % 2 ^ 32

/-- Bitwise complement `~x` of a `uint32_t`. -/
def not32 (x : Nat) : Nat := x ^^^ 0xFFFFFFFF

/-- Conversion of a 32-bit pattern (`unsigned int`) to `int`, two's complement. -/
def toInt32 (x : Nat) : Int := if x % 2 ^ 32 < 2 ^ 31 then (x % 2 ^ 32 : Nat) else (x % 2 ^ 32 : Nat) - 2 ^ 32

/-- Conversion `(size_t)i` of an `int` to the 64-bit unsigned type. -/
def toSizeT (i : Int) : Nat := (i % 2 ^ 64).toNat

/-- Write `buf[i] = v` into a heap buffer; `none` when `i` is outside the buffer. -/
def writeAt (buf : List Nat) (i v : Nat) : Option (List Nat) :=
  if i < buf.length then some (buf.set i v) else none

/-- Values of the counter of `for (i = start; i < stop; i += step)`. -/
def upTo (start stop step : Nat) : List Nat :=
  List.range' start ((stop - start + (step - 1)) / step) step

/-- Values of the counter of `for (int i = hi; i >= lo; i -= 1)` when the loop makes `count` turns. -/
def downFrom (hi : Int) (count : Nat) : List Int :=
  (List.range' 0 count).map (fun k => hi - (k : Int))

/-! ## `toHex` (lines 21-26) -/

/-- The text `sprintf(hex, "%08x", bin)` writes: the hexadecimal digits of `bin`, lowercase,
most significant first, padded on the left with `0` to a width of 8. -/
def toHex (bin : Nat) : String :=
  String.mk (List.leftpad 8 '0' (Nat.toDigits 16 bin))

/-! ## Rotations (lines 28-36) -/

/-- `leftRotate`: `(x << c) | (x >> (32 - c))` on `uint32_t`. -/
def leftRotate (x c : Nat) : Nat := ((x <<< c) % 2 ^ 32) ||| (x >>> (32 - c))

/-- `rightRotate`: `(x >> c) | (x << (32 - c))` on `uint32_t`. -/
def rightRotate (x c : Nat) : Nat := (x >>> c) ||| ((x <<< (32 - c)) % 2 ^ 32)

/-! ## `intToByteArray` (lines 87-95) -/

/-- `intToByteArray(n, array)`: for `i = 7` down to `0`, `array[i] = (n >> (i * 8)) & 0xFF`. -/
def intToByteArray (n : Nat) (array : List Nat) : List Nat :=
  (downFrom 7 8).foldl (fun arr i => arr.set i.toNat ((n >>> (i.toNat * 8)) &&& 0xFF)) array

/-! ## `convertChunkTo32BitWordArray` (lines 97-109) -/

/-- The inner loop over `j = 0..3`: `word = word | ((uint32_t)pre_processed[i + j] << ((3 - j) * 8))`. -/
def assembleWord (pre_processed : List Nat) (i : Nat) : Option Nat :=
  (upTo 0 4 1).foldlM
    (fun word j => do
      let byte ← pre_processed[i + j]?
      pure (word ||| ((byte <<< ((3 - j) * 8)) % 2 ^ 32)))
    0

/-- `convertChunkTo32BitWordArray(pre_processed, size_of_preprocessed, chunk, word_array)`.
`startBytes = chunk * 64` is an `int` product: it has no defined value above `2^31 - 1`. -/
def convertChunkTo32BitWordArray (pre_processed : List Nat) (size_of_preprocessed : Nat)
    (chunk : Nat) (word_array : List Nat) : Option (List Nat) :=
  if chunk * 64 ≤ 2 ^ 31 - 1 then
    let startBytes := chunk * 64
    (upTo startBytes (size_of_preprocessed + startBytes) 4).foldlM
      (fun wa i => do
        let word ← assembleWord pre_processed i
        writeAt wa ((i - startBytes) / 4) word)
      word_array
  else none

/-! ## `sha_256` (lines 111-234) -/

/-- Line 118: `(unsigned int)ceil((double)(n + 8) / 64)`. The `double` holds `n + 8` exactly
below `2^53`, the division by 64 is exact, and the conversion keeps the low 32 bits. -/
def noOfChunks (n : Nat) : Nat := (((n + 8) % 2 ^ 64 + 63) / 64) % 2 ^ 32

/-- Line 122: `int noOfBytes = noOfChunks * 64` (an `unsigned int` product converted to `int`). -/
def noOfBytes (n : Nat) : Int := toInt32 ((noOfChunks n * 64) % 2 ^ 32)

/-- Lines 123-141, the padding stage: the zeroed buffer, the copy of `input[0..n-2]`, the
separator `0x80` at `n - 1`, and the reversed copy of the 8 length bytes into the end of the
buffer. `n - 1` is a `size_t` difference. -/
def preProcess (input : List Nat) (n : Nat) : Option (List Nat) := do
  let noOfBytes := noOfBytes n
  let pre_processed := List.replicate (toSizeT noOfBytes) 0
  let pre_processed ← (upTo 0 ((n + 2 ^ 64 - 1) % 2 ^ 64) 1).foldlM
    (fun pre i => do
      let ch ← input[i]?
      writeAt pre i (ch % 256))
    pre_processed
  let pre_processed ← writeAt pre_processed ((n + 2 ^ 64 - 1) % 2 ^ 64) 0x80
  let byteArrayOfInputSize :=
    intToByteArray ((((n + 2 ^ 64 - 1) % 2 ^ 64) * 8) % 2 ^ 64) (List.replicate 8 0)
  (downFrom (noOfBytes - 1) 8).foldlM
    (fun pre i =>
      if 0 ≤ i then writeAt pre i.toNat (byteArrayOfInputSize.getD (noOfBytes - 1 - i).toNat 0)
      else none)
    pre_processed

/-- The eight hash values `h0..h7`. -/
structure Hash where
  h0 : Nat
  h1 : Nat
  h2 : Nat
  h3 : Nat
  h4 : Nat
  h5 : Nat
  h6 : Nat
  h7 : Nat
deriving DecidableEq

/-- The eight working variables `a..h`. -/
structure Vars where
  a : Nat
  b : Nat
  c : Nat
  d : Nat
  e : Nat
  f : Nat
  g : Nat
  h : Nat
deriving DecidableEq

/-- Lines 144-151: the initial hash values. -/
def initialHash : Hash :=
  ⟨0x6a09e667, 0xbb67ae85, 0x3c6ef372, 0xa54ff53a, 0x510e527f, 0x9b05688c, 0x1f83d9ab, 0x5be0cd19⟩

/-- Lines 154-162: the array of round constants, one list to a line of the source. -/
def ROUND_CONSTANTS : List Nat :=
  [0x428a2f98, 0x71374491, 0xb5c0fbcf, 0xe9b5dba5, 0x3956c25b, 0x59f111f1, 0x923f82a4, 0xab1c5ed5] ++
  [0xd807aa98, 0x12835b01, 0x243185be, 0x550c7dc3, 0x72be5d74, 0x80deb1fe, 0x9bdc06a7, 0xc19bf174] ++
  [0xe49b69c1, 0xefbe4786, 0x0fc19dc6, 0x240ca1cc, 0x2de92c6f, 0x4a7484aa, 0x5cb0a9dc, 0x76f988da] ++
  [0x983e5152, 0xa831c66d, 0xb00327c8, 0xbf597fc7, 0xc6e00bf3, 0xd5a79147, 0x06ca6351, 0x14292967] ++
  [0x27b70a85, 0x2e1b2138, 0x4d2c6dfc, 0x53380d13, 0x650a7354, 0x766a0abb, 0x81c2c92e, 0x92722c85] ++
  [0xa2bfe8a1, 0xa81a664b, 0xc24b8b70, 0xc76c51a3, 0xd192e819, 0xd6990624, 0xf40e3585, 0x106aa070] ++
  [0x19a4c116, 0x1e376c08, 0x2748774c, 0x34b0bcb5, 0x391c0cb3, 0x4ed8aa4a, 0x5b9cca4f, 0x682e6ff3] ++
  [0x748f82ee, 0x78a5636f, 0x84c87814, 0x8cc70208, 0x90befffa, 0xa4506ceb, 0xbef9a3f7, 0xc67178f2]

/-- Lines 172-176, the body of the schedule loop at counter `i`. -/
def scheduleStep (words : List Nat) (i : Nat) : List Nat :=
  let s0 := rightRotate (words.getD (i - 15) 0) 7 ^^^ rightRotate (words.getD (i - 15) 0) 18
    ^^^ (words.getD (i - 15) 0 >>> 3)
  let s1 := rightRotate (words.getD (i - 2) 0) 17 ^^^ rightRotate (words.getD (i - 2) 0) 19
    ^^^ (words.getD (i - 2) 0 >>> 10)
  words.set i (add32 (add32 (add32 (words.getD (i - 16) 0) s0) (words.getD (i - 7) 0)) s1)

/-- Lines 170-177: `for (int i = 16; i < 64; i += 1)`. -/
def scheduleLoop (words : List Nat) : List Nat :=
  (upTo 16 64 1).foldl scheduleStep words

/-- Lines 192-207, the body of the compression loop at counter `i`; the assignments are made
one after the other, as in the source. -/
def compressionStep (words : List Nat) (v : Vars) (i : Nat) : Vars :=
  let s1 := rightRotate v.e 6 ^^^ rightRotate v.e 11 ^^^ rightRotate v.e 25
  let ch := (v.e &&& v.f) ^^^ (not32 v.e &&& v.g)
  let t1 := add32 (add32 (add32 (add32 v.h s1) ch) (ROUND_CONSTANTS.getD i 0)) (words.getD i 0)
  let s0 := rightRotate v.a 2 ^^^ rightRotate v.a 13 ^^^ rightRotate v.a 22
  let maj := (v.a &&& v.b) ^^^ (v.a &&& v.c) ^^^ (v.b &&& v.c)
  let t2 := add32 s0 maj
  let v := { v with h := v.g }
  let v := { v with g := v.f }
  let v := { v with f := v.e }
  let v := { v with e := add32 v.d t1 }
  let v := { v with d := v.c }
  let v := { v with c := v.b }
  let v := { v with b := v.a }
  let v := { v with a := add32 t1 t2 }
  v

/-- Lines 190-208: `for (int i = 0; i < 64; i++)`. -/
def compressionLoop (words : List Nat) (v : Vars) : Vars :=
  (upTo 0 64 1).foldl (compressionStep words) v

/-- Lines 179-218 for one chunk, given its 64 words: the working variables start from the
hash values, go through the compression loop, and are added to the hash values. -/
def compressChunk (words : List Nat) (hs : Hash) : Hash :=
  let v := compressionLoop words ⟨hs.h0, hs.h1, hs.h2, hs.h3, hs.h4, hs.h5, hs.h6, hs.h7⟩
  ⟨add32 hs.h0 v.a, add32 hs.h1 v.b, add32 hs.h2 v.c, add32 hs.h3 v.d,
   add32 hs.h4 v.e, add32 hs.h5 v.f, add32 hs.h6 v.g, add32 hs.h7 v.h⟩

/-- Lines 167-177: the 64 words of chunk `chunk` (`words[64] = {0}`, the conversion of the
chunk's bytes, the schedule loop). -/
def chunkWords (pre_processed : List Nat) (chunk : Nat) : Option (List Nat) := do
  let words ← convertChunkTo32BitWordArray pre_processed 64 chunk (List.replicate 64 0)
  pure (scheduleLoop words)

/-- Lines 165-219: the body of the chunk loop. -/
def chunkIteration (pre_processed : List Nat) (hs : Hash) (chunk : Nat) : Option Hash := do
  let words ← chunkWords pre_processed chunk
  pure (compressChunk words hs)

/-- `strcat(dest, src)` on strings. -/
def strcat (dest src : String) : String := dest ++ src

/-- Lines 221-233: the digest string, eight `strcat(digest, toHex(h_i))` onto the empty string
(the zeroed buffer). The text is what is defined here; the capacity of the buffer that holds it
is not part of this definition. -/
def digest (hs : Hash) : String :=
  let digest := ""
  let digest := strcat digest (toHex hs.h0)
  let digest := strcat digest (toHex hs.h1)
  let digest := strcat digest (toHex hs.h2)
  let digest := strcat digest (toHex hs.h3)
  let digest := strcat digest (toHex hs.h4)
  let digest := strcat digest (toHex hs.h5)
  let digest := strcat digest (toHex hs.h6)
  let digest := strcat digest (toHex hs.h7)
  digest

/-- `sha_256(input, n)`: padding, the chunk loop over `chunk = 0 .. noOfChunks - 1`, the digest. -/
def sha_256 (input : List Nat) (n : Nat) : Option String := do
  let pre_processed ← preProcess input n
  let hs ← (upTo 0 (noOfChunks n) 1).foldlM (chunkIteration pre_processed) initialHash
  pure (digest hs)

/-- Lines 118-219: the hash values `h0..h7` when the chunk loop ends. -/
def finalHash (input : List Nat) (n : Nat) : Option Hash := do
  let pre_processed ← preProcess input n
  (upTo 0 (noOfChunks n) 1).foldlM (chunkIteration pre_processed) initialHash

/-- Line 131: the index `n - 1` of the separator write, a `size_t` difference. -/
def separatorIndex (n : Nat) : Nat := (n + 2 ^ 64 - 1) % 2 ^ 64

/-- Line 136: the bit length `(size_t)(n - 1) * 8` handed to `intToByteArray`. -/
def encodedBitLength (n : Nat) : Nat := (((n + 2 ^ 64 - 1) % 2 ^ 64) * 8) % 2 ^ 64

/-! ## Character buffers, byte by byte

The buffers of `toHex`, of the digest and of `main` as arrays of bytes of the size the
source allocates, with checked indexing. A string in a buffer ends at its first NUL. -/

/-- The bytes of a string literal of the source. -/
def bytesOf (s : String) : List Nat := s.toList.map Char.toNat

/-- Writes of consecutive bytes: `buf[start] = b0`, `buf[start + 1] = b1`, and so on;
`none` when one of them is outside the buffer. -/
def writeBytes (buf : List Nat) (start : Nat) : List Nat → Option (List Nat)
  | [] => some buf
  | b :: bs => (writeAt buf start b).bind (fun buf => writeBytes buf (start + 1) bs)

/-- `strlen(s)` for a buffer `s`: the index of its first NUL; `none` when the buffer holds no
NUL (the scan leaves the buffer). -/
def strlen (s : List Nat) : Option Nat :=
  if s.indexOf 0 < s.length then some (s.indexOf 0) else none

/-- `strcat(dest, src)` on buffers: the bytes of the string in `src` and its terminating NUL
are written into `dest` from the index of the first NUL of `dest` on. -/
def strcatBuf (dest src : List Nat) : Option (List Nat) := do
  let d ← strlen dest
  let l ← strlen src
  writeBytes dest d (src.take (l + 1))

/-- Lines 21-26 with the buffer: `hex` is 9 bytes, zeroed by `memset`; `sprintf` writes the
text of `%08x` and a terminating NUL from index 0 on. -/
def toHexBuf (bin : Nat) : Option (List Nat) :=
  writeBytes (List.replicate 9 0) 0 (bytesOf (toHex bin) ++ [0])

/-- Lines 224-231 on a buffer `digest`: the eight `strcat(digest, toHex(h_i))`. -/
def digestInto (digest : List Nat) (hs : Hash) : Option (List Nat) := do
  let digest ← (toHexBuf hs.h0).bind (strcatBuf digest)
  let digest ← (toHexBuf hs.h1).bind (strcatBuf digest)
  let digest ← (toHexBuf hs.h2).bind (strcatBuf digest)
  let digest ← (toHexBuf hs.h3).bind (strcatBuf digest)
  let digest ← (toHexBuf hs.h4).bind (strcatBuf digest)
  let digest ← (toHexBuf hs.h5).bind (strcatBuf digest)
  let digest ← (toHexBuf hs.h6).bind (strcatBuf digest)
  (toHexBuf hs.h7).bind (strcatBuf digest)

/-- Lines 221-233 with the buffer: `digest` is 64 bytes (`malloc(sizeof(char) * 64)`), zeroed by
`memset`, and receives the eight `strcat`. -/
def digestBuf (hs : Hash) : Option (List Nat) :=
  digestInto (List.replicate 64 0) hs

/-- `sha_256(input, n)` with the digest buffer byte by byte: the content of the buffer it
returns. -/
def sha_256_bytes (input : List Nat) (n : Nat) : Option (List Nat) := do
  let hs ← finalHash input n
  digestBuf hs

/-! ## `main` (lines 236-266) -/

/-- What a run of `main` does that can be seen from outside. -/
inductive Event where
  | printf (text : List Nat)
  | sha_256 (input : List Nat) (n : Nat)
deriving DecidableEq

/-- A block of `size` bytes from `malloc`: its content is not set by `malloc`, and is
whatever `junk` says. -/
def malloc (junk : List Nat) (size : Nat) : List Nat :=
  (List.range size).map (fun i => junk.getD i 0)

/-- Lines 243-245, the body of the first loop at counter `i`. An argument `argv[i]` is given
by its bytes before the terminator; `strsize` is a `size_t`. -/
def strsizeStep (argv : List (List Nat)) (strsize i : Nat) : Option Nat := do
  let len ← strlen (argv.getD i [] ++ [0])
  let strsize := (strsize + len) % 2 ^ 64
  pure (if argv.length > i + 1 then (strsize + 1) % 2 ^ 64 else strsize)

/-- Lines 241-248: `strsize` after the first loop and `strsize++`. -/
def mainStrsize (argv : List (List Nat)) : Option Nat := do
  let strsize ← (upTo 1 argv.length 1).foldlM (strsizeStep argv) 0
  pure ((strsize + 1) % 2 ^ 64)

/-- Lines 255-257, the body of the second loop at counter `i`. -/
def inputStep (argv : List (List Nat)) (input : List Nat) (i : Nat) : Option (List Nat) := do
  let input ← strcatBuf input (argv.getD i [] ++ [0])
  if argv.length > i + 1 then strcatBuf input (bytesOf " " ++ [0]) else pure input

/-- Lines 250-258: the buffer `input` after `malloc(strsize)`, `input[0] = 0` and the second
loop. -/
def mainInput (argv : List (List Nat)) (junk : List Nat) : Option (List Nat) := do
  let strsize ← mainStrsize argv
  let input := malloc junk strsize
  let input ← writeAt input 0 0
  (upTo 1 argv.length 1).foldlM (inputStep argv) input

/-- `main(argc, argv)` with `argc = argv.length`: the events of the run and the value returned.
The event `sha_256 input n` stands for the call and all it does. -/
def main (argv : List (List Nat)) (junk : List Nat) : Option (List Event × Int) :=
  if argv.length < 1 then some ([], 0)
  else do
    let input ← mainInput argv junk
    let len ← strlen input
    let n := (len + 1) % 2 ^ 64
    let output ← sha_256 input n
    pure ([Event.printf (bytesOf "\nInput: " ++ input.take len ++ bytesOf "\n"),
           Event.sha_256 input n,
           Event.printf (bytesOf "\nSHA-265 Digest : " ++ bytesOf output ++ bytesOf "\n")], 0)

/-! ## Vocabulary of the statements -/

/-- Every hash value is a 32-bit word. -/
def Hash.InRange (hs : Hash) : Prop :=
  hs.h0 < 2 ^ 32 ∧ hs.h1 < 2 ^ 32 ∧ hs.h2 < 2 ^ 32 ∧ hs.h3 < 2 ^ 32 ∧
  hs.h4 < 2 ^ 32 ∧ hs.h5 < 2 ^ 32 ∧ hs.h6 < 2 ^ 32 ∧ hs.h7 < 2 ^ 32

/-- Every working variable is a 32-bit word. -/
def Vars.InRange (v : Vars) : Prop :=
  v.a < 2 ^ 32 ∧ v.b < 2 ^ 32 ∧ v.c < 2 ^ 32 ∧ v.d < 2 ^ 32 ∧
  v.e < 2 ^ 32 ∧ v.f < 2 ^ 32 ∧ v.g < 2 ^ 32 ∧ v.h < 2 ^ 32

instance (hs : Hash) : Decidable hs.InRange := by
  unfold Hash.InRange
  infer_instance

instance (v : Vars) : Decidable v.InRange := by
  unfold Vars.InRange
  infer_instance

/-- The `k` lowest hexadecimal digits of `w`, most significant first. -/
def hexN : Nat → Nat → List Char
  | 0, _ => []
  | k + 1, w => hexN k (w / 16) ++ [Nat.digitChar (w % 16)]

/-- The characters `0-9` and `a-f`. -/
def lowerHexChars : List Char := "0123456789abcdef".toList

/-- Value of one hexadecimal digit character. -/
def hexCharVal (c : Char) : Nat :=
  if c.toNat < 58 then c.toNat - 48 else c.toNat - 87

/-- The number a string of hexadecimal digits denotes, most significant digit first. -/
def hexValue (s : String) : Nat :=
  s.data.foldl (fun acc c => 16 * acc + hexCharVal c) 0

/-- What the specification states of the padded buffer for a message of `m` bytes (the call
with `n = m + 1`): its length, the size handed to `calloc`, is 64 times the chunk count
`ceil((m + 9) / 64)`, a positive multiple of 64, the least one that is at least `m + 9`, and
the separator index `m` lies before the last 8 bytes. -/
def PaddedLength (m : Nat) : Prop :=
  toSizeT (noOfBytes (m + 1)) = 64 * noOfChunks (m + 1) ∧
  noOfChunks (m + 1) = (m + 9 + 63) / 64 ∧
  0 < toSizeT (noOfBytes (m + 1)) ∧
  m + 9 ≤ toSizeT (noOfBytes (m + 1)) ∧
  (∀ k, m + 9 ≤ 64 * k → toSizeT (noOfBytes (m + 1)) ≤ 64 * k) ∧
  m < toSizeT (noOfBytes (m + 1)) - 8

/-- Number of set bits among the 32 bits of a word. -/
def bitCount (x : Nat) : Nat := (List.range 32).countP (fun i => x.testBit i)

/-- Trial division: `p` is at least 2 and no `d` with `2 <= d < p` divides it. -/
def isPrime (p : Nat) : Bool :=
  decide (2 ≤ p) && (List.range p).all (fun d => decide (d < 2) || decide (p % d ≠ 0))

/-- The primes below `bound`, in increasing order. -/
def primesBelow (bound : Nat) : List Nat := (List.range bound).filter isPrime

/-- The arguments joined with one space between consecutive ones. -/
def joinArgs (args : List (List Nat)) : List Nat := List.intercalate (bytesOf " ") args

/-- What C17 states of a message of `m` bytes (the call with `n = m + 1`): the chunk count, the
position of the separator or the encoded bit length differs from the standard's. -/
def PaddingDiffers (m : Nat) : Prop :=
  noOfChunks (m + 1) ≠ (m + 9 + 63) / 64 ∨ separatorIndex (m + 1) ≠ m ∨
  encodedBitLength (m + 1) ≠ 8 * m

instance (m : Nat) : Decidable (PaddingDiffers m) := by
  unfold PaddingDiffers
  infer_instance

end Sha256

/-! ## Reference: SHA-256 as FIPS 180-4 defines it

Written from the standard, not from `sha_256.c`: words are numbers below `2^32`, the
rotation is given by its arithmetic meaning, the message schedule grows a list one word at a
time, and the padding is a concatenation of lists. -/

namespace Ref

open Sha256 (Hash Vars)

/-- Rotation to the right by `c` positions of a 32-bit word: the `c` low bits move to the top. -/
def rotr (x c : Nat) : Nat := x / 2 ^ c + (x % 2 ^ c) * 2 ^ (32 - c)

/-- Shift to the right by `c` positions. -/
def shr (x c : Nat) : Nat := x / 2 ^ c

/-- Complement of a 32-bit word. -/
def compl (x : Nat) : Nat := 2 ^ 32 - 1 - x

/-- The function Ch of section 4.1.2. -/
def ch (x y z : Nat) : Nat := (x &&& y) ^^^ (compl x &&& z)

/-- The function Maj of section 4.1.2. -/
def maj (x y z : Nat) : Nat := (x &&& y) ^^^ (x &&& z) ^^^ (y &&& z)

/-- The function written with a capital sigma and index 0. -/
def bigSigma0 (x : Nat) : Nat := rotr x 2 ^^^ rotr x 13 ^^^ rotr x 22

/-- The function written with a capital sigma and index 1. -/
def bigSigma1 (x : Nat) : Nat := rotr x 6 ^^^ rotr x 11 ^^^ rotr x 25

/-- The function written with a small sigma and index 0. -/
def smallSigma0 (x : Nat) : Nat := rotr x 7 ^^^ rotr x 18 ^^^ shr x 3

/-- The function written with a small sigma and index 1. -/
def smallSigma1 (x : Nat) : Nat := rotr x 17 ^^^ rotr x 19 ^^^ shr x 10

/-- The sixty-four constants of section 4.2.2 (first 32 bits of the fractional parts of the
cube roots of the first sixty-four primes), in decimal. -/
def K : List Nat :=
  [1116352408, 1899447441, 3049323471, 3921009573, 961987163, 1508970993,
   2453635748, 2870763221, 3624381080, 310598401, 607225278, 1426881987,
   1925078388, 2162078206, 2614888103, 3248222580, 3835390401, 4022224774,
   264347078, 604807628, 770255983, 1249150122, 1555081692, 1996064986,
   2554220882, 2821834349, 2952996808, 3210313671, 3336571891, 3584528711,
   113926993, 338241895, 666307205, 773529912, 1294757372, 1396182291,
   1695183700, 1986661051, 2177026350, 2456956037, 2730485921, 2820302411,
   3259730800, 3345764771, 3516065817, 3600352804, 4094571909, 275423344,
   430227734, 506948616, 659060556, 883997877, 958139571, 1322822218,
   1537002063, 1747873779, 1955562222, 2024104815, 2227730452, 2361852424,
   2428436474, 2756734187, 3204031479, 3329325298]

/-- The initial hash value of section 5.3.3, in decimal. -/
def H0 : Hash :=
  ⟨1779033703, 3144134277, 1013904242, 2773480762, 1359893119, 2600822924, 528734635, 1541459225⟩

/-- One round on the working variables, with round constant `k` and schedule word `w`. -/
def round (k w : Nat) (v : Vars) : Vars :=
  let t1 := (v.h + bigSigma1 v.e + ch v.e v.f v.g + k + w) % 2 ^ 32
  let t2 := (bigSigma0 v.a + maj v.a v.b v.c) % 2 ^ 32
  ⟨(t1 + t2) % 2 ^ 32, v.a, v.b, v.c, (v.d + t1) % 2 ^ 32, v.e, v.f, v.g⟩

/-- The working variables after the first `t` rounds. -/
def rounds (W : List Nat) : Nat → Vars → Vars
  | 0, v => v
  | t + 1, v => round (K.getD t 0) (W.getD t 0) (rounds W t v)

/-- The compression of one message schedule `W` into the hash value `H`: the working variables
start at `H`, take 64 rounds, and are added to `H` word by word. -/
def compress (W : List Nat) (H : Hash) : Hash :=
  let v := rounds W 64 ⟨H.h0, H.h1, H.h2, H.h3, H.h4, H.h5, H.h6, H.h7⟩
  ⟨(H.h0 + v.a) % 2 ^ 32, (H.h1 + v.b) % 2 ^ 32, (H.h2 + v.c) % 2 ^ 32, (H.h3 + v.d) % 2 ^ 32,
   (H.h4 + v.e) % 2 ^ 32, (H.h5 + v.f) % 2 ^ 32, (H.h6 + v.g) % 2 ^ 32, (H.h7 + v.h) % 2 ^ 32⟩

/-- The big-endian words of a list of bytes, four bytes to a word. -/
def beWords : List Nat → List Nat
  | b0 :: b1 :: b2 :: b3 :: rest => (b0 * 2 ^ 24 + b1 * 2 ^ 16 + b2 * 2 ^ 8 + b3) :: beWords rest
  | _ => []

/-- The next word of the message schedule, appended to the words so far. -/
def extend (W : List Nat) : List Nat :=
  W ++ [(smallSigma1 (W.getD (W.length - 2) 0) + W.getD (W.length - 7) 0
    + smallSigma0 (W.getD (W.length - 15) 0) + W.getD (W.length - 16) 0) % 2 ^ 32]

/-- The message schedule of a 64-byte block: its sixteen words, extended 48 times. -/
def schedule (block : List Nat) : List Nat :=
  extend^[48] (beWords block)

/-- The 8 bytes of the big-endian 64-bit encoding of `x`. -/
def be64 (x : Nat) : List Nat :=
  [x / 2 ^ 56 % 256, x / 2 ^ 48 % 256, x / 2 ^ 40 % 256, x / 2 ^ 32 % 256,
   x / 2 ^ 24 % 256, x / 2 ^ 16 % 256, x / 2 ^ 8 % 256, x % 256]

/-- The padded message of section 5.1.1: the message, the byte `0x80`, the least number of zero
bytes that brings the length to 56 modulo 64, and the length of the message in bits. -/
def pad (msg : List Nat) : List Nat :=
  msg ++ [0x80] ++ List.replicate ((119 - msg.length % 64) % 64) 0 ++ be64 (8 * msg.length)

/-- The 64-byte blocks of a padded message, in order. -/
def blocks (padded : List Nat) : List (List Nat) :=
  (List.range (padded.length / 64)).map (fun k => (padded.drop (64 * k)).take 64)

/-- The final hash value of a message: the blocks of the padded message are compressed one
after the other, starting from `H0`. -/
def hash (msg : List Nat) : Hash :=
  (blocks (pad msg)).foldl (fun H block => compress (schedule block) H) H0

/-- The four bytes of a word, most significant first. -/
def wordBytes (w : Nat) : List Nat :=
  [w / 2 ^ 24 % 256, w / 2 ^ 16 % 256, w / 2 ^ 8 % 256, w % 256]

/-- The 32-byte message digest: the eight words of the final hash value, in order. -/
def sha256 (msg : List Nat) : List Nat :=
  let H := hash msg
  wordBytes H.h0 ++ wordBytes H.h1 ++ wordBytes H.h2 ++ wordBytes H.h3 ++
  wordBytes H.h4 ++ wordBytes H.h5 ++ wordBytes H.h6 ++ wordBytes H.h7

/-- Lowercase hexadecimal text of a list of bytes, two digits to a byte. -/
def hexEncode (bytes : List Nat) : String :=
  String.mk (bytes.flatMap (fun b => [Nat.digitChar (b / 16), Nat.digitChar (b % 16)]))

end Ref

/-! # Verification -/

namespace Sha256

/-! ## Loop counters and the sizes of the padding stage -/

theorem upTo_one (start stop : Nat) : upTo start stop 1 = List.range' start (stop - start) := by
  simp [upTo]

theorem noOfChunks_eq (n : Nat) (hfit : 64 * ((n + 8 + 63) / 64) ≤ 2 ^ 31 - 1) :
    noOfChunks n = (n + 8 + 63) / 64 := by
  unfold noOfChunks
  omega

theorem noOfBytes_eq (n : Nat) (hfit : 64 * ((n + 8 + 63) / 64) ≤ 2 ^ 31 - 1) :
    noOfBytes n = ((64 * ((n + 8 + 63) / 64) : Nat) : Int) := by
  unfold noOfBytes toInt32
  rw [noOfChunks_eq n hfit]
  have h : ((n + 8 + 63) / 64 * 64 % 2 ^ 32) % 2 ^ 32 = 64 * ((n + 8 + 63) / 64) := by omega
  rw [h, if_pos (by omega)]

theorem toSizeT_natCast (k : Nat) (hk : k < 2 ^ 64) : toSizeT (k : Int) = k := by
  unfold toSizeT
  omega

theorem copyLoop_spec (input : List Nat) : ∀ (c s : Nat) (pre : List Nat),
    s + c ≤ input.length → s + c ≤ pre.length →
    ∃ r, (List.range' s c).foldlM
        (fun pre i => do
          let ch ← input[i]?
          writeAt pre i (ch % 256)) pre = some r ∧
      r.length = pre.length ∧
      ∀ i, r[i]? = if s ≤ i ∧ i < s + c then (input[i]?).map (· % 256) else pre[i]? := by
  intro c
  induction c with
  | zero =>
    intro s pre _ _
    refine ⟨pre, by simp, rfl, ?_⟩
    intro i
    rw [if_neg (by omega)]
  | succ c ih =>
    intro s pre hi hp
    have hs : s < input.length := by omega
    obtain ⟨r, hr, hlen, hget⟩ := ih (s + 1) (pre.set s (input[s] % 256)) (by omega)
      (by rw [List.length_set]; omega)
    refine ⟨r, ?_, ?_, ?_⟩
    · rw [List.range'_succ, List.foldlM_cons]
      simp only [List.getElem?_eq_getElem hs, writeAt, Option.some_bind, Option.bind_eq_bind]
      rw [if_pos (by omega)]
      simpa using hr
    · rw [hlen, List.length_set]
    · intro i
      rw [hget i]
      by_cases h1 : s + 1 ≤ i ∧ i < s + 1 + c
      · rw [if_pos h1, if_pos (by omega)]
      · rw [if_neg h1]
        by_cases h2 : i = s
        · subst h2
          rw [if_pos (by omega), List.getElem?_set_self (by omega), List.getElem?_eq_getElem hs]
          rfl
        · rw [if_neg (by omega), List.getElem?_set_ne (by omega)]

/-! ## The length bytes -/

theorem intToByteArray_replicate (x : Nat) :
    intToByteArray x (List.replicate 8 0) =
      [x &&& 0xFF, (x >>> 8) &&& 0xFF, (x >>> 16) &&& 0xFF, (x >>> 24) &&& 0xFF,
       (x >>> 32) &&& 0xFF, (x >>> 40) &&& 0xFF, (x >>> 48) &&& 0xFF, (x >>> 56) &&& 0xFF] := by
  simp [intToByteArray, downFrom, List.range', List.replicate]

theorem lengthLoop_spec (arr : List Nat) (L : Nat) : ∀ (c s : Nat) (pre : List Nat),
    s + c ≤ L → pre.length = L →
    ∃ r, ((List.range' s c).map (fun k : Nat => (L : Int) - 1 - (k : Int))).foldlM
        (fun pre i =>
          if 0 ≤ i then writeAt pre i.toNat (arr.getD ((L : Int) - 1 - i).toNat 0) else none) pre
          = some r ∧
      r.length = L ∧
      ∀ i, r[i]? = if L - (s + c) ≤ i ∧ i < L - s then some (arr.getD (L - 1 - i) 0) else pre[i]? := by
  intro c
  induction c with
  | zero =>
    intro s pre _ hp
    refine ⟨pre, by simp, hp, ?_⟩
    intro i
    rw [if_neg (by omega)]
  | succ c ih =>
    intro s pre hs hp
    obtain ⟨r, hr, hlen, hget⟩ := ih (s + 1) (pre.set (L - 1 - s) (arr.getD s 0)) (by omega)
      (by rw [List.length_set]; exact hp)
    have e1 : ((L : Int) - 1 - (s : Int)).toNat = L - 1 - s := by omega
    have e2 : ((L : Int) - 1 - ((L : Int) - 1 - (s : Int))).toNat = s := by omega
    refine ⟨r, ?_, hlen, ?_⟩
    · rw [List.range'_succ, List.map_cons, List.foldlM_cons]
      rw [if_pos (by omega), e1, e2]
      simp only [writeAt]
      rw [if_pos (by omega)]
      simpa using hr
    · intro i
      rw [hget i]
      by_cases h1 : L - (s + 1 + c) ≤ i ∧ i < L - (s + 1)
      · rw [if_pos h1, if_pos (by omega)]
      · rw [if_neg h1]
        by_cases h2 : i = L - 1 - s
        · subst h2
          rw [if_pos (by omega), List.getElem?_set_self (by omega)]
          congr 2
          omega
        · rw [if_neg (by omega), List.getElem?_set_ne (by omega)]

/-! ## The padded buffer, byte by byte -/

theorem and_255 (x : Nat) : x &&& 255 = x % 256 :=
  Nat.and_pow_two_sub_one_eq_mod x 8

theorem lengthBytes_getD (x k : Nat) (hk : k < 8) :
    [x &&& 0xFF, (x >>> 8) &&& 0xFF, (x >>> 16) &&& 0xFF, (x >>> 24) &&& 0xFF,
       (x >>> 32) &&& 0xFF, (x >>> 40) &&& 0xFF, (x >>> 48) &&& 0xFF, (x >>> 56) &&& 0xFF].getD k 0
      = x / 256 ^ k % 256 := by
  interval_cases k <;> simp [and_255, Nat.shiftRight_eq_div_pow]

theorem preProcess_spec (input : List Nat) (n : Nat) (hn : 1 ≤ n) (hin : n - 1 ≤ input.length)
    (hfit : 64 * ((n + 8 + 63) / 64) ≤ 2 ^ 31 - 1) :
    ∃ buf, preProcess input n = some buf ∧ buf.length = 64 * ((n + 8 + 63) / 64) ∧
      ∀ i, buf[i]? =
        if i < n - 1 then (input[i]?).map (· % 256)
        else if i = n - 1 then some 0x80
        else if i < 64 * ((n + 8 + 63) / 64) - 8 then some 0
        else if i < 64 * ((n + 8 + 63) / 64) then
          some (8 * (n - 1) / 256 ^ (64 * ((n + 8 + 63) / 64) - 1 - i) % 256)
        else none := by
  set L := 64 * ((n + 8 + 63) / 64) with hL
  have hLn : n + 8 ≤ L := by omega
  have e1 : (n + 2 ^ 64 - 1) % 2 ^ 64 = n - 1 := by omega
  have e2 : (n - 1) * 8 % 2 ^ 64 = 8 * (n - 1) := by omega
  obtain ⟨r1, hr1, hl1, hg1⟩ := copyLoop_spec input (n - 1) 0 (List.replicate L 0) (by omega)
    (by rw [List.length_replicate]; omega)
  rw [List.length_replicate] at hl1
  obtain ⟨r2, hr2, hl2, hg2⟩ := lengthLoop_spec
    (intToByteArray (8 * (n - 1)) (List.replicate 8 0)) L 8 0 (r1.set (n - 1) 0x80) (by omega)
    (by rw [List.length_set]; exact hl1)
  refine ⟨r2, ?_, hl2, ?_⟩
  · unfold preProcess
    simp only [noOfBytes_eq n hfit, ← hL, toSizeT_natCast L (by omega), e1, e2, upTo_one,
      Nat.sub_zero, downFrom]
    rw [hr1]
    simp only [Option.bind_eq_bind, Option.some_bind, writeAt]
    rw [if_pos (by omega)]
    simp only [Option.some_bind]
    exact hr2
  · intro i
    rw [hg2 i]
    by_cases h1 : i < n - 1
    · rw [if_neg (by omega), if_pos h1, List.getElem?_set_ne (by omega), hg1 i,
        if_pos (by omega)]
    · rw [if_neg h1]
      by_cases h2 : i = n - 1
      · rw [if_pos h2, if_neg (by omega), h2, List.getElem?_set_self (by omega)]
      · rw [if_neg h2]
        by_cases h3 : i < L - 8
        · rw [if_pos h3, if_neg (by omega), List.getElem?_set_ne (by omega), hg1 i,
            if_neg (by omega), List.getElem?_replicate, if_pos (by omega)]
        · rw [if_neg h3]
          by_cases h4 : i < L
          · rw [if_pos h4, if_pos (by omega), intToByteArray_replicate,
              lengthBytes_getD _ _ (by omega)]
          · rw [if_neg h4, if_neg (by omega), List.getElem?_eq_none (by
              rw [List.length_set]; omega)]

/-! ## Big-endian words of a chunk -/

theorem pow_mul_lor (a i b : Nat) (hb : b < 2 ^ i) : 2 ^ i * a ||| b = 2 ^ i * a + b :=
  (Nat.mul_add_lt_is_or hb a).symm

theorem beWord_lor (b0 b1 b2 b3 : Nat) (h0 : b0 < 256) (h1 : b1 < 256) (h2 : b2 < 256)
    (h3 : b3 < 256) :
    (((0 ||| (b0 <<< 24) % 2 ^ 32) ||| (b1 <<< 16) % 2 ^ 32) ||| (b2 <<< 8) % 2 ^ 32)
        ||| (b3 <<< 0) % 2 ^ 32
      = b0 * 2 ^ 24 + b1 * 2 ^ 16 + b2 * 2 ^ 8 + b3 := by
  have s0 : (b0 <<< 24) % 2 ^ 32 = 2 ^ 24 * b0 := by rw [Nat.shiftLeft_eq]; omega
  have s1 : (b1 <<< 16) % 2 ^ 32 = 2 ^ 16 * b1 := by rw [Nat.shiftLeft_eq]; omega
  have s2 : (b2 <<< 8) % 2 ^ 32 = 2 ^ 8 * b2 := by rw [Nat.shiftLeft_eq]; omega
  have s3 : (b3 <<< 0) % 2 ^ 32 = b3 := by rw [Nat.shiftLeft_eq]; omega
  rw [s0, s1, s2, s3, Nat.zero_or, pow_mul_lor _ 24 _ (by omega)]
  have e1 : 2 ^ 24 * b0 + 2 ^ 16 * b1 = 2 ^ 16 * (2 ^ 8 * b0 + b1) := by omega
  rw [e1, pow_mul_lor _ 16 _ (by omega)]
  have e2 : 2 ^ 16 * (2 ^ 8 * b0 + b1) + 2 ^ 8 * b2 = 2 ^ 8 * (2 ^ 16 * b0 + 2 ^ 8 * b1 + b2) := by
    omega
  rw [e2, pow_mul_lor _ 8 _ (by omega)]
  omega

theorem assembleWord_spec (pre : List Nat) (i : Nat) (hi : i + 4 ≤ pre.length)
    (hb : ∀ b ∈ pre, b < 256) :
    assembleWord pre i = some (pre.getD i 0 * 2 ^ 24 + pre.getD (i + 1) 0 * 2 ^ 16
      + pre.getD (i + 2) 0 * 2 ^ 8 + pre.getD (i + 3) 0) := by
  have g : ∀ j, j < 4 → pre[i + j]? = some (pre.getD (i + j) 0) := by
    intro j hj
    rw [List.getD_eq_getElem?_getD, List.getElem?_eq_getElem (by omega)]
    rfl
  have hlt : ∀ j, pre.getD j 0 < 256 := by
    intro j
    rw [List.getD_eq_getElem?_getD]
    cases h : pre[j]? with
    | none => simp
    | some b => simpa using hb b (List.getElem?_mem h)
  unfold assembleWord
  have hu : upTo 0 4 1 = [0, 1, 2, 3] := by decide
  rw [hu]
  simp only [List.foldlM_cons, List.foldlM_nil, g 0 (by omega), g 1 (by omega), g 2 (by omega),
    g 3 (by omega), Option.bind_eq_bind, Option.some_bind, Option.pure_def]
  simp only [Nat.add_zero]
  exact congrArg some (beWord_lor _ _ _ _ (hlt _) (hlt _) (hlt _) (hlt _))

theorem convertLoop_spec (pre : List Nat) (start : Nat) (hb : ∀ b ∈ pre, b < 256) :
    ∀ (c s : Nat) (wa : List Nat), s + c ≤ wa.length → start + 4 * (s + c) ≤ pre.length →
    ∃ r, (List.range' (start + 4 * s) c 4).foldlM
        (fun wa i => do
          let word ← assembleWord pre i
          writeAt wa ((i - start) / 4) word) wa = some r ∧
      r.length = wa.length ∧
      ∀ i, r[i]? = if s ≤ i ∧ i < s + c then
          some (pre.getD (start + 4 * i) 0 * 2 ^ 24 + pre.getD (start + 4 * i + 1) 0 * 2 ^ 16
            + pre.getD (start + 4 * i + 2) 0 * 2 ^ 8 + pre.getD (start + 4 * i + 3) 0)
        else wa[i]? := by
  intro c
  induction c with
  | zero =>
    intro s wa _ _
    refine ⟨wa, by simp, rfl, ?_⟩
    intro i
    rw [if_neg (by omega)]
  | succ c ih =>
    intro s wa hw hp
    obtain ⟨r, hr, hlen, hget⟩ := ih (s + 1)
      (wa.set s (pre.getD (start + 4 * s) 0 * 2 ^ 24 + pre.getD (start + 4 * s + 1) 0 * 2 ^ 16
            + pre.getD (start + 4 * s + 2) 0 * 2 ^ 8 + pre.getD (start + 4 * s + 3) 0))
      (by rw [List.length_set]; omega) (by omega)
    have e1 : (start + 4 * s - start) / 4 = s := by omega
    have e2 : start + 4 * s + 4 = start + 4 * (s + 1) := by omega
    refine ⟨r, ?_, ?_, ?_⟩
    · rw [List.range'_succ, List.foldlM_cons, assembleWord_spec pre _ (by omega) hb]
      simp only [Option.bind_eq_bind, Option.some_bind, writeAt, e1]
      rw [if_pos (by omega), e2]
      simpa using hr
    · rw [hlen, List.length_set]
    · intro i
      rw [hget i]
      by_cases h1 : s + 1 ≤ i ∧ i < s + 1 + c
      · rw [if_pos h1, if_pos (by omega)]
      · rw [if_neg h1]
        by_cases h2 : i = s
        · subst h2
          rw [if_pos (by omega), List.getElem?_set_self (by omega)]
        · rw [if_neg (by omega), List.getElem?_set_ne (by omega)]

theorem convertChunk_spec (pre : List Nat) (chunk : Nat) (wa : List Nat)
    (hb : ∀ b ∈ pre, b < 256) (hlen : 64 * chunk + 64 ≤ pre.length)
    (hint : pre.length ≤ 2 ^ 31 - 1) (hw : 16 ≤ wa.length) :
    ∃ r, convertChunkTo32BitWordArray pre 64 chunk wa = some r ∧ r.length = wa.length ∧
      ∀ i, r[i]? = if i < 16 then
          some (pre.getD (64 * chunk + 4 * i) 0 * 2 ^ 24
            + pre.getD (64 * chunk + 4 * i + 1) 0 * 2 ^ 16
            + pre.getD (64 * chunk + 4 * i + 2) 0 * 2 ^ 8 + pre.getD (64 * chunk + 4 * i + 3) 0)
        else wa[i]? := by
  obtain ⟨r, hr, hl, hg⟩ := convertLoop_spec pre (64 * chunk) hb 16 0 wa (by omega) (by omega)
  refine ⟨r, ?_, hl, ?_⟩
  · unfold convertChunkTo32BitWordArray
    rw [if_pos (by omega)]
    have hu : upTo (chunk * 64) (64 + chunk * 64) 4 = List.range' (64 * chunk + 4 * 0) 16 4 := by
      unfold upTo
      congr 1 <;> omega
    simp only [hu]
    have e : chunk * 64 = 64 * chunk := by omega
    rw [e]
    exact hr
  · intro i
    rw [hg i]
    by_cases h : i < 16
    · rw [if_pos h, if_pos (by omega)]
    · rw [if_neg h, if_neg (by omega)]

/-! ## Rotation and complement as arithmetic -/

theorem rightRotate_eq_rotr (x c : Nat) (hx : x < 2 ^ 32) (hc0 : 0 < c) (hc : c < 32) :
    rightRotate x c = Ref.rotr x c := by
  unfold rightRotate Ref.rotr
  have hp : (2 : Nat) ^ 32 = 2 ^ c * 2 ^ (32 - c) := by
    rw [← pow_add]; congr 1; omega
  have h1 : (x <<< (32 - c)) % 2 ^ 32 = 2 ^ (32 - c) * (x % 2 ^ c) := by
    rw [Nat.shiftLeft_eq, hp, Nat.mul_mod_mul_right, Nat.mul_comm]
  have h2 : x >>> c < 2 ^ (32 - c) := by
    rw [Nat.shiftRight_eq_div_pow, Nat.div_lt_iff_lt_mul (Nat.two_pow_pos _)]
    rw [Nat.mul_comm, ← hp]; exact hx
  rw [h1, Nat.lor_comm, pow_mul_lor _ _ _ h2, Nat.shiftRight_eq_div_pow]
  rw [Nat.add_comm, Nat.mul_comm]

theorem rightRotate_lt (x c : Nat) (hx : x < 2 ^ 32) : rightRotate x c < 2 ^ 32 := by
  unfold rightRotate
  apply Nat.or_lt_two_pow
  · rw [Nat.shiftRight_eq_div_pow]
    exact lt_of_le_of_lt (Nat.div_le_self _ _) hx
  · exact Nat.mod_lt _ (by norm_num)

theorem not32_eq_compl (x : Nat) (hx : x < 2 ^ 32) : not32 x = Ref.compl x := by
  unfold not32 Ref.compl
  apply Nat.eq_of_testBit_eq
  intro i
  have e : (0xFFFFFFFF : Nat) = 2 ^ 32 - 1 := by norm_num
  rw [Nat.testBit_xor, e, Nat.testBit_two_pow_sub_one]
  have h := Nat.testBit_two_pow_sub_succ hx i
  simp only [Nat.succ_eq_add_one] at h
  have e2 : 2 ^ 32 - 1 - x = 2 ^ 32 - (x + 1) := by omega
  rw [e2, h]
  by_cases hi : i < 32
  · simp [hi]
  · simp [hi]
    exact Nat.testBit_lt_two_pow (lt_of_lt_of_le hx (Nat.pow_le_pow_right (by norm_num) (by omega)))

theorem add32_lt (a b : Nat) : add32 a b < 2 ^ 32 := Nat.mod_lt _ (by norm_num)

/-! ## The schedule loop against the reference schedule -/

theorem take_set_succ (l : List Nat) (i v : Nat) (hi : i < l.length) :
    (l.set i v).take (i + 1) = l.take i ++ [v] := by
  apply List.ext_getElem?
  intro j
  rw [List.getElem?_take, List.getElem?_append]
  by_cases h1 : j < i
  · rw [if_pos (by omega), List.getElem?_set_ne (by omega), if_pos (by
      rw [List.length_take]; omega), List.getElem?_take, if_pos h1]
  · by_cases h2 : j = i
    · subst h2
      rw [if_pos (by omega), List.getElem?_set_self hi, if_neg (by
        rw [List.length_take]; omega)]
      rw [List.length_take, Nat.min_eq_left (by omega)]
      simp
    · rw [if_neg (by omega), if_neg (by rw [List.length_take]; omega)]
      rw [List.length_take, Nat.min_eq_left (by omega)]
      rw [List.getElem?_eq_none]
      simp; omega

theorem getD_take_of_lt (l : List Nat) (i j : Nat) (h : j < i) :
    (l.take i).getD j 0 = l.getD j 0 := by
  simp [List.getElem?_take, h]

theorem getD_lt_of_take (l : List Nat) (i j : Nat) (h : j < i)
    (hb : ∀ x ∈ l.take i, x < 2 ^ 32) : l.getD j 0 < 2 ^ 32 := by
  rw [← getD_take_of_lt l i j h, List.getD_eq_getElem?_getD]
  cases hx : (l.take i)[j]? with
  | none => simp
  | some b => simpa using hb b (List.getElem?_mem hx)

theorem scheduleWord_eq (a x b y : Nat) (hx : x < 2 ^ 32) (hy : y < 2 ^ 32) :
    add32 (add32 (add32 a (rightRotate x 7 ^^^ rightRotate x 18 ^^^ (x >>> 3))) b)
        (rightRotate y 17 ^^^ rightRotate y 19 ^^^ (y >>> 10))
      = (Ref.smallSigma1 y + b + Ref.smallSigma0 x + a) % 2 ^ 32 := by
  unfold Ref.smallSigma0 Ref.smallSigma1 Ref.shr
  rw [rightRotate_eq_rotr x 7 hx (by omega) (by omega),
    rightRotate_eq_rotr x 18 hx (by omega) (by omega),
    rightRotate_eq_rotr y 17 hy (by omega) (by omega),
    rightRotate_eq_rotr y 19 hy (by omega) (by omega),
    Nat.shiftRight_eq_div_pow, Nat.shiftRight_eq_div_pow]
  unfold add32
  omega

theorem scheduleFold_take (w0 : List Nat) (hlen : w0.length = 64)
    (hb : ∀ x ∈ w0.take 16, x < 2 ^ 32) : ∀ c, c ≤ 48 →
    ((List.range' 16 c).foldl scheduleStep w0).length = 64 ∧
    ((List.range' 16 c).foldl scheduleStep w0).take (16 + c) = Ref.extend^[c] (w0.take 16) ∧
    ∀ x ∈ ((List.range' 16 c).foldl scheduleStep w0).take (16 + c), x < 2 ^ 32 := by
  intro c
  induction c with
  | zero =>
    intro _
    exact ⟨hlen, rfl, hb⟩
  | succ c ih =>
    intro hc
    obtain ⟨hl, ht, hbd⟩ := ih (by omega)
    rw [List.range'_concat, List.foldl_append]
    simp only [List.foldl_cons, List.foldl_nil, Nat.one_mul]
    generalize (List.range' 16 c).foldl scheduleStep w0 = r at hl ht hbd
    have hstep : (scheduleStep r (16 + c)).take (16 + c + 1) = Ref.extend (List.take (16 + c) r) := by
      unfold scheduleStep Ref.extend
      rw [take_set_succ _ _ _ (by omega)]
      have hlt : (List.take (16 + c) r).length = 16 + c := by
        rw [List.length_take]; omega
      rw [hlt, getD_take_of_lt _ _ _ (by omega), getD_take_of_lt _ _ _ (by omega),
        getD_take_of_lt _ _ _ (by omega), getD_take_of_lt _ _ _ (by omega)]
      rw [scheduleWord_eq _ _ _ _ (getD_lt_of_take r (16 + c) _ (by omega) hbd)
        (getD_lt_of_take r (16 + c) _ (by omega) hbd)]
    refine ⟨?_, ?_, ?_⟩
    · unfold scheduleStep
      rw [List.length_set]; exact hl
    · rw [Function.iterate_succ_apply', ← ht]
      exact hstep
    · intro x hx
      have hx' : x ∈ (scheduleStep r (16 + c)).take (16 + c + 1) := hx
      unfold scheduleStep at hx'
      rw [take_set_succ _ _ _ (by omega)] at hx'
      rcases List.mem_append.1 hx' with h | h
      · exact hbd x h
      · rw [List.mem_singleton] at h
        rw [h]; exact add32_lt _ _

theorem getD_set_ne (l : List Nat) (i j v : Nat) (h : i ≠ j) : (l.set i v).getD j 0 = l.getD j 0 := by
  simp [List.getElem?_set_ne h]

theorem getD_set_self (l : List Nat) (i v : Nat) (h : i < l.length) : (l.set i v).getD i 0 = v := by
  simp [List.getElem?_set_self h]

theorem scheduleFold_pointwise (w0 : List Nat) (hlen : w0.length = 64)
    (hb : ∀ x ∈ w0.take 16, x < 2 ^ 32) : ∀ c, c ≤ 48 →
    (∀ i, i < 16 → ((List.range' 16 c).foldl scheduleStep w0).getD i 0 = w0.getD i 0) ∧
    ∀ i, 16 ≤ i → i < 16 + c →
      ((List.range' 16 c).foldl scheduleStep w0).getD i 0 =
        (Ref.smallSigma1 (((List.range' 16 c).foldl scheduleStep w0).getD (i - 2) 0)
          + ((List.range' 16 c).foldl scheduleStep w0).getD (i - 7) 0
          + Ref.smallSigma0 (((List.range' 16 c).foldl scheduleStep w0).getD (i - 15) 0)
          + ((List.range' 16 c).foldl scheduleStep w0).getD (i - 16) 0) % 2 ^ 32 := by
  intro c
  induction c with
  | zero =>
    intro _
    exact ⟨fun _ _ => rfl, fun i h1 h2 => by omega⟩
  | succ c ih =>
    intro hc
    obtain ⟨h16, hrec⟩ := ih (by omega)
    obtain ⟨hl, -, hbd⟩ := scheduleFold_take w0 hlen hb c (by omega)
    rw [List.range'_concat, List.foldl_append]
    simp only [List.foldl_cons, List.foldl_nil, Nat.one_mul]
    generalize (List.range' 16 c).foldl scheduleStep w0 = r at hl hbd h16 hrec
    have hs : ∀ j, j ≠ 16 + c → (scheduleStep r (16 + c)).getD j 0 = r.getD j 0 := by
      intro j hj
      unfold scheduleStep
      exact getD_set_ne _ _ _ _ (by omega)
    refine ⟨?_, ?_⟩
    · intro i hi
      rw [hs i (by omega), h16 i hi]
    · intro i hi1 hi2
      rw [hs (i - 2) (by omega), hs (i - 7) (by omega), hs (i - 15) (by omega),
        hs (i - 16) (by omega)]
      by_cases h : i = 16 + c
      · subst h
        unfold scheduleStep
        rw [getD_set_self _ _ _ (by omega)]
        exact scheduleWord_eq _ _ _ _ (getD_lt_of_take r (16 + c) _ (by omega) hbd)
          (getD_lt_of_take r (16 + c) _ (by omega) hbd)
      · rw [hs i h]
        exact hrec i hi1 (by omega)

/-! ## The compression loop against the reference rounds -/

theorem roundConstants_eq : ROUND_CONSTANTS = Ref.K := by decide

theorem compressionStep_eq (words : List Nat) (v : Vars) (i : Nat) (hv : v.InRange) :
    compressionStep words v i = Ref.round (Ref.K.getD i 0) (words.getD i 0) v := by
  obtain ⟨ha, -, -, -, he, -, -, -⟩ := hv
  unfold compressionStep Ref.round Ref.bigSigma0 Ref.bigSigma1 Ref.ch Ref.maj
  rw [rightRotate_eq_rotr _ 6 he (by omega) (by omega),
    rightRotate_eq_rotr _ 11 he (by omega) (by omega),
    rightRotate_eq_rotr _ 25 he (by omega) (by omega),
    rightRotate_eq_rotr _ 2 ha (by omega) (by omega),
    rightRotate_eq_rotr _ 13 ha (by omega) (by omega),
    rightRotate_eq_rotr _ 22 ha (by omega) (by omega),
    not32_eq_compl _ he, roundConstants_eq]
  simp only [Vars.mk.injEq, and_true, true_and]
  unfold add32
  constructor <;> omega

theorem round_inRange (k w : Nat) (v : Vars) (hv : v.InRange) : (Ref.round k w v).InRange := by
  obtain ⟨ha, hb, hc, hd, he, hf, hg, hh⟩ := hv
  unfold Ref.round Vars.InRange
  have hm : ∀ x : Nat, x % 2 ^ 32 < 2 ^ 32 := fun x => Nat.mod_lt _ (by norm_num)
  exact ⟨hm _, ha, hb, hc, hm _, he, hf, hg⟩

theorem rounds_inRange (W : List Nat) (v : Vars) (hv : v.InRange) :
    ∀ t, (Ref.rounds W t v).InRange := by
  intro t
  induction t with
  | zero => exact hv
  | succ t ih => exact round_inRange _ _ _ ih

theorem compressionFold_eq (words : List Nat) (v : Vars) (hv : v.InRange) :
    ∀ t, (List.range' 0 t).foldl (compressionStep words) v = Ref.rounds words t v := by
  intro t
  induction t with
  | zero => rfl
  | succ t ih =>
    rw [List.range'_concat, List.foldl_append, ih]
    simp only [List.foldl_cons, List.foldl_nil, Nat.one_mul, Nat.zero_add]
    rw [compressionStep_eq _ _ _ (rounds_inRange words v hv t)]
    rfl

theorem compressChunk_eq (words : List Nat) (hs : Hash) (hr : hs.InRange) :
    compressChunk words hs = Ref.compress words hs := by
  have hv : Vars.InRange ⟨hs.h0, hs.h1, hs.h2, hs.h3, hs.h4, hs.h5, hs.h6, hs.h7⟩ := hr
  unfold compressChunk compressionLoop Ref.compress
  rw [upTo_one, compressionFold_eq words _ hv 64]
  rfl

theorem compress_inRange (W : List Nat) (H : Hash) : (Ref.compress W H).InRange := by
  unfold Ref.compress Hash.InRange
  have hm : ∀ x : Nat, x % 2 ^ 32 < 2 ^ 32 := fun x => Nat.mod_lt _ (by norm_num)
  exact ⟨hm _, hm _, hm _, hm _, hm _, hm _, hm _, hm _⟩

theorem initialHash_eq : initialHash = Ref.H0 := by decide

theorem initialHash_inRange : initialHash.InRange := by
  unfold Hash.InRange initialHash
  decide

/-! ## The words of a chunk -/

theorem beWords_spec : ∀ (n : Nat) (l : List Nat), l.length = 4 * n →
    (Ref.beWords l).length = n ∧
    ∀ i, i < n → (Ref.beWords l)[i]? =
      some (l.getD (4 * i) 0 * 2 ^ 24 + l.getD (4 * i + 1) 0 * 2 ^ 16
        + l.getD (4 * i + 2) 0 * 2 ^ 8 + l.getD (4 * i + 3) 0) := by
  intro n
  induction n with
  | zero =>
    intro l hl
    have : l = [] := List.length_eq_zero.1 (by omega)
    subst this
    exact ⟨rfl, fun i hi => by omega⟩
  | succ n ih =>
    intro l hl
    match l, hl with
    | b0 :: b1 :: b2 :: b3 :: rest, hl =>
      have hr : rest.length = 4 * n := by
        simp only [List.length_cons] at hl
        omega
      obtain ⟨h1, h2⟩ := ih rest hr
      refine ⟨by simp [Ref.beWords, h1], ?_⟩
      intro i hi
      cases i with
      | zero => simp [Ref.beWords]
      | succ i =>
        have h := h2 i (by omega)
        have e0 : 4 * (i + 1) = 4 * i + 1 + 1 + 1 + 1 := by omega
        have e1 : 4 * (i + 1) + 1 = 4 * i + 1 + 1 + 1 + 1 + 1 := by omega
        have e2 : 4 * (i + 1) + 2 = 4 * i + 2 + 1 + 1 + 1 + 1 := by omega
        have e3 : 4 * (i + 1) + 3 = 4 * i + 3 + 1 + 1 + 1 + 1 := by omega
        simp only [Ref.beWords, List.getElem?_cons_succ, h, e0, e1, e2, e3,
          List.getD_eq_getElem?_getD]

theorem block_getD (pre : List Nat) (k j : Nat) (hj : j < 64) :
    ((pre.drop (64 * k)).take 64).getD j 0 = pre.getD (64 * k + j) 0 := by
  simp [List.getElem?_take, hj, List.getElem?_drop]

theorem block_length (pre : List Nat) (k : Nat) (h : 64 * k + 64 ≤ pre.length) :
    ((pre.drop (64 * k)).take 64).length = 64 := by
  rw [List.length_take, List.length_drop]; omega

theorem chunkWords_eq (pre : List Nat) (chunk : Nat) (hb : ∀ b ∈ pre, b < 256)
    (hlen : 64 * chunk + 64 ≤ pre.length) (hint : pre.length ≤ 2 ^ 31 - 1) :
    chunkWords pre chunk = some (Ref.schedule ((pre.drop (64 * chunk)).take 64)) := by
  obtain ⟨w, hw, hl, hg⟩ := convertChunk_spec pre chunk (List.replicate 64 0) hb hlen hint
    (by simp)
  rw [List.length_replicate] at hl
  obtain ⟨hbl, hbg⟩ := beWords_spec 16 ((pre.drop (64 * chunk)).take 64)
    (by rw [block_length pre chunk hlen])
  have hlt : ∀ j, pre.getD j 0 < 256 := by
    intro j
    rw [List.getD_eq_getElem?_getD]
    cases h : pre[j]? with
    | none => simp
    | some b => simpa using hb b (List.getElem?_mem h)
  have htake : w.take 16 = Ref.beWords ((pre.drop (64 * chunk)).take 64) := by
    apply List.ext_getElem?
    intro i
    rw [List.getElem?_take]
    by_cases hi : i < 16
    · rw [if_pos hi, hg i, if_pos hi, hbg i hi, block_getD _ _ _ (by omega),
        block_getD _ _ _ (by omega), block_getD _ _ _ (by omega), block_getD _ _ _ (by omega)]
      simp only [Nat.add_assoc]
    · rw [if_neg hi, List.getElem?_eq_none (by omega)]
  have hbd : ∀ x ∈ w.take 16, x < 2 ^ 32 := by
    intro x hx
    obtain ⟨i, hi⟩ := List.mem_iff_getElem?.1 hx
    rw [List.getElem?_take] at hi
    by_cases h16 : i < 16
    · rw [if_pos h16, hg i, if_pos h16] at hi
      have h0 := hlt (64 * chunk + 4 * i)
      have h1 := hlt (64 * chunk + 4 * i + 1)
      have h2 := hlt (64 * chunk + 4 * i + 2)
      have h3 := hlt (64 * chunk + 4 * i + 3)
      injection hi with hi
      omega
    · rw [if_neg h16] at hi
      exact absurd hi (by simp)
  obtain ⟨hfl, ht, -⟩ := scheduleFold_take w hl hbd 48 (by omega)
  have hsched : scheduleLoop w = Ref.schedule ((pre.drop (64 * chunk)).take 64) := by
    have e : upTo 16 64 1 = List.range' 16 48 := by decide
    unfold scheduleLoop Ref.schedule
    rw [e, ← htake, ← ht]
    exact (List.take_of_length_le (by rw [hfl])).symm
  unfold chunkWords
  rw [hw]
  show some (scheduleLoop w) = _
  rw [hsched]

/-! ## Hexadecimal text -/

theorem hexN_length (k w : Nat) : (hexN k w).length = k := by
  induction k generalizing w with
  | zero => rfl
  | succ k ih => simp [hexN, ih]

theorem hexN_zero (k : Nat) : hexN k 0 = List.replicate k '0' := by
  induction k with
  | zero => rfl
  | succ k ih =>
    simp only [hexN, Nat.zero_div, ih, Nat.zero_mod]
    rw [List.replicate_succ']
    rfl

theorem toDigitsCore_hexN (k : Nat) : ∀ (fuel n : Nat) (ds : List Char), n < 16 ^ (k + 1) → n < fuel →
    ∃ z, hexN (k + 1) n ++ ds = List.replicate z '0' ++ Nat.toDigitsCore 16 fuel n ds ∧
      z + (Nat.toDigitsCore 16 fuel n ds).length = k + 1 + ds.length := by
  induction k with
  | zero =>
    intro fuel n ds hn hf
    obtain ⟨fuel, rfl⟩ : ∃ f, fuel = f + 1 := ⟨fuel - 1, by omega⟩
    refine ⟨0, ?_, ?_⟩
    · have h0 : n / 16 = 0 := by omega
      simp [hexN, Nat.toDigitsCore, h0]
    · have h0 : n / 16 = 0 := by omega
      simp [Nat.toDigitsCore, h0]
      omega
  | succ k ih =>
    intro fuel n ds hn hf
    obtain ⟨fuel, rfl⟩ : ∃ f, fuel = f + 1 := ⟨fuel - 1, by omega⟩
    by_cases h0 : n / 16 = 0
    · refine ⟨k + 1, ?_, ?_⟩
      · rw [hexN, h0, hexN_zero]
        simp [Nat.toDigitsCore, h0]
      · simp [Nat.toDigitsCore, h0]; omega
    · have hn' : n / 16 < 16 ^ (k + 1) := by
        rw [Nat.div_lt_iff_lt_mul (by norm_num)]
        calc n < 16 ^ (k + 1 + 1) := hn
          _ = 16 ^ (k + 1) * 16 := by ring
      have hf' : n / 16 < fuel := by omega
      obtain ⟨z, hz, hl⟩ := ih fuel (n / 16) (Nat.digitChar (n % 16) :: ds) hn' hf'
      refine ⟨z, ?_, ?_⟩
      · rw [hexN]
        simp only [Nat.toDigitsCore, h0, if_false, List.append_assoc, List.singleton_append]
        exact hz
      · simp only [Nat.toDigitsCore, h0, if_false]
        simp at hl ⊢
        omega

theorem toHex_data (w : Nat) (hw : w < 2 ^ 32) : (toHex w).data = hexN 8 w := by
  obtain ⟨z, hz, hl⟩ := toDigitsCore_hexN 7 (w + 1) w [] (by simpa using hw) (by omega)
  simp only [List.append_nil, List.length_nil, Nat.add_zero] at hz hl
  have hz' : z = 8 - (Nat.toDigits 16 w).length := by
    unfold Nat.toDigits; omega
  simp only [toHex, List.leftpad]
  rw [hz, hz']
  rfl

theorem digest_data (hs : Hash) (hr : hs.InRange) :
    (digest hs).data = hexN 8 hs.h0 ++ hexN 8 hs.h1 ++ hexN 8 hs.h2 ++ hexN 8 hs.h3
      ++ hexN 8 hs.h4 ++ hexN 8 hs.h5 ++ hexN 8 hs.h6 ++ hexN 8 hs.h7 := by
  obtain ⟨r0, r1, r2, r3, r4, r5, r6, r7⟩ := hr
  simp only [digest, strcat, String.data_append, toHex_data _ r0, toHex_data _ r1,
    toHex_data _ r2, toHex_data _ r3, toHex_data _ r4, toHex_data _ r5, toHex_data _ r6,
    toHex_data _ r7]
  rfl

theorem hexN_eight (w : Nat) (hw : w < 2 ^ 32) :
    hexN 8 w = (Ref.wordBytes w).flatMap (fun b => [Nat.digitChar (b / 16), Nat.digitChar (b % 16)]) := by
  have e7 : w / 16 / 16 / 16 / 16 / 16 / 16 / 16 % 16 = w / 2 ^ 24 % 256 / 16 := by omega
  have e6 : w / 16 / 16 / 16 / 16 / 16 / 16 % 16 = w / 2 ^ 24 % 256 % 16 := by omega
  have e5 : w / 16 / 16 / 16 / 16 / 16 % 16 = w / 2 ^ 16 % 256 / 16 := by omega
  have e4 : w / 16 / 16 / 16 / 16 % 16 = w / 2 ^ 16 % 256 % 16 := by omega
  have e3 : w / 16 / 16 / 16 % 16 = w / 2 ^ 8 % 256 / 16 := by omega
  have e2 : w / 16 / 16 % 16 = w / 2 ^ 8 % 256 % 16 := by omega
  have e1 : w / 16 % 16 = w % 256 / 16 := by omega
  have e0 : w % 16 = w % 256 % 16 := by omega
  simp only [hexN, Ref.wordBytes, List.flatMap_cons, List.flatMap_nil, List.nil_append,
    List.cons_append, List.append_nil, e7, e6, e5, e4, e3, e2, e1]
  rw [e0]

theorem digest_eq_hexEncode (hs : Hash) (hr : hs.InRange) :
    digest hs = Ref.hexEncode (Ref.wordBytes hs.h0 ++ Ref.wordBytes hs.h1 ++ Ref.wordBytes hs.h2
      ++ Ref.wordBytes hs.h3 ++ Ref.wordBytes hs.h4 ++ Ref.wordBytes hs.h5 ++ Ref.wordBytes hs.h6
      ++ Ref.wordBytes hs.h7) := by
  have h := digest_data hs hr
  obtain ⟨r0, r1, r2, r3, r4, r5, r6, r7⟩ := hr
  apply String.ext
  rw [h]
  simp only [Ref.hexEncode, List.flatMap_append, hexN_eight _ r0, hexN_eight _ r1,
    hexN_eight _ r2, hexN_eight _ r3, hexN_eight _ r4, hexN_eight _ r5, hexN_eight _ r6,
    hexN_eight _ r7]

/-! ## The chunk loop, the padding and the whole function -/

theorem foldlM_eq_foldl (f : Hash → Nat → Option Hash) (g : Hash → Nat → Hash) :
    ∀ (l : List Nat) (init : Hash), init.InRange →
    (∀ k ∈ l, ∀ H : Hash, H.InRange → f H k = some (g H k) ∧ (g H k).InRange) →
    l.foldlM f init = some (l.foldl g init) ∧ (l.foldl g init).InRange := by
  intro l
  induction l with
  | nil =>
    intro init hi _
    exact ⟨rfl, hi⟩
  | cons k l ih =>
    intro init hi h
    obtain ⟨h1, h2⟩ := h k (List.mem_cons_self _ _) init hi
    rw [List.foldlM_cons, h1, List.foldl_cons]
    simp only [Option.bind_eq_bind, Option.some_bind]
    exact ih (g init k) h2 (fun k' hk' => h k' (List.mem_cons_of_mem _ hk'))

theorem chunkLoop_eq (pre : List Nat) (N : Nat) (hb : ∀ b ∈ pre, b < 256)
    (hlen : pre.length = 64 * N) (hint : pre.length ≤ 2 ^ 31 - 1) :
    (upTo 0 N 1).foldlM (chunkIteration pre) initialHash =
      some ((Ref.blocks pre).foldl (fun H block => Ref.compress (Ref.schedule block) H) Ref.H0) ∧
    ((Ref.blocks pre).foldl (fun H block => Ref.compress (Ref.schedule block) H) Ref.H0).InRange := by
  have hN : pre.length / 64 = N := by omega
  have hblocks : (Ref.blocks pre).foldl (fun H block => Ref.compress (Ref.schedule block) H) Ref.H0
      = (List.range' 0 N).foldl
          (fun H k => Ref.compress (Ref.schedule ((pre.drop (64 * k)).take 64)) H) initialHash := by
    unfold Ref.blocks
    rw [hN, List.foldl_map, List.range_eq_range', initialHash_eq]
  rw [hblocks, upTo_one, Nat.sub_zero]
  apply foldlM_eq_foldl _ _ _ _ initialHash_inRange
  intro k hk H hH
  have hk' : k < N := by
    have := (List.mem_range'_1.1 hk).2
    omega
  refine ⟨?_, compress_inRange _ _⟩
  unfold chunkIteration
  rw [chunkWords_eq pre k hb (by omega) hint]
  simp only [Option.bind_eq_bind, Option.some_bind, Option.pure_def]
  rw [compressChunk_eq _ _ hH]

theorem be64_getElem? (x j : Nat) (hj : j < 8) :
    (Ref.be64 x)[j]? = some (x / 256 ^ (7 - j) % 256) := by
  unfold Ref.be64
  interval_cases j <;> simp

theorem pad_length (msg : List Nat) :
    (Ref.pad msg).length = 64 * ((msg.length + 1 + 8 + 63) / 64) := by
  simp only [Ref.pad, Ref.be64, List.length_append, List.length_replicate, List.length_cons,
    List.length_nil]
  omega

theorem pad_getElem? (msg : List Nat) (i : Nat) :
    (Ref.pad msg)[i]? =
      if i < msg.length then msg[i]?
      else if i = msg.length then some 0x80
      else if i < msg.length + 1 + (119 - msg.length % 64) % 64 then some 0
      else (Ref.be64 (8 * msg.length))[i - (msg.length + 1 + (119 - msg.length % 64) % 64)]? := by
  unfold Ref.pad
  by_cases h1 : i < msg.length
  · rw [if_pos h1, List.append_assoc, List.append_assoc, List.getElem?_append_left h1]
  · rw [if_neg h1, List.append_assoc, List.append_assoc, List.getElem?_append_right (by omega)]
    by_cases h2 : i = msg.length
    · rw [if_pos h2, h2, Nat.sub_self]
      simp
    · rw [if_neg h2, List.getElem?_append_right (by simp; omega)]
      by_cases h3 : i < msg.length + 1 + (119 - msg.length % 64) % 64
      · rw [if_pos h3, List.getElem?_append_left (by simp; omega), List.getElem?_replicate,
          if_pos (by simp; omega)]
      · rw [if_neg h3, List.getElem?_append_right (by simp; omega)]
        congr 1
        simp
        omega

theorem preProcess_eq_pad (input : List Nat) (n : Nat) (hn : 1 ≤ n) (hin : n - 1 ≤ input.length)
    (hfit : 64 * ((n + 8 + 63) / 64) ≤ 2 ^ 31 - 1) :
    preProcess input n = some (Ref.pad ((input.take (n - 1)).map (· % 256))) := by
  obtain ⟨buf, hbuf, hl, hg⟩ := preProcess_spec input n hn hin hfit
  rw [hbuf]
  congr 1
  apply List.ext_getElem?
  intro i
  have hm : ((input.take (n - 1)).map (· % 256)).length = n - 1 := by
    rw [List.length_map, List.length_take, Nat.min_eq_left hin]
  rw [hg i, pad_getElem?, hm]
  have hz : n - 1 + 1 + (119 - (n - 1) % 64) % 64 + 8 = 64 * ((n + 8 + 63) / 64) := by omega
  by_cases h1 : i < n - 1
  · rw [if_pos h1, if_pos h1, List.getElem?_map, List.getElem?_take, if_pos h1]
  · rw [if_neg h1, if_neg h1]
    by_cases h2 : i = n - 1
    · rw [if_pos h2, if_pos h2]
    · rw [if_neg h2, if_neg h2]
      by_cases h3 : i < 64 * ((n + 8 + 63) / 64) - 8
      · rw [if_pos h3, if_pos (show i < n - 1 + 1 + (119 - (n - 1) % 64) % 64 by omega)]
      · rw [if_neg h3, if_neg (show ¬ i < n - 1 + 1 + (119 - (n - 1) % 64) % 64 by omega)]
        by_cases h4 : i < 64 * ((n + 8 + 63) / 64)
        · rw [if_pos h4, be64_getElem? _ _ (by omega)]
          congr 4
          omega
        · rw [if_neg h4, List.getElem?_eq_none (by simp [Ref.be64]; omega)]

theorem pad_bytes (msg : List Nat) (hb : ∀ b ∈ msg, b < 256) : ∀ b ∈ Ref.pad msg, b < 256 := by
  intro b hbm
  unfold Ref.pad Ref.be64 at hbm
  simp only [List.mem_append, List.mem_replicate, List.mem_cons, List.mem_singleton,
    List.not_mem_nil, or_false] at hbm
  rcases hbm with ((h | h) | h) | h
  · exact hb b h
  · omega
  · omega
  · rcases h with h | h | h | h | h | h | h | h <;> omega

theorem sha_256_eq_ref (input : List Nat) (n : Nat) (hn : 1 ≤ n) (hin : n - 1 ≤ input.length)
    (hfit : 64 * ((n + 8 + 63) / 64) ≤ 2 ^ 31 - 1) :
    sha_256 input n = some (Ref.hexEncode (Ref.sha256 ((input.take (n - 1)).map (· % 256)))) := by
  have hm : ((input.take (n - 1)).map (· % 256)).length = n - 1 := by
    rw [List.length_map, List.length_take, Nat.min_eq_left hin]
  have hb : ∀ b ∈ (input.take (n - 1)).map (· % 256), b < 256 := by
    intro b hbm
    obtain ⟨a, -, rfl⟩ := List.mem_map.1 hbm
    exact Nat.mod_lt _ (by norm_num)
  have hpl : (Ref.pad ((input.take (n - 1)).map (· % 256))).length = 64 * ((n + 8 + 63) / 64) := by
    rw [pad_length, hm]
    congr 2
    omega
  obtain ⟨h1, h2⟩ := chunkLoop_eq (Ref.pad ((input.take (n - 1)).map (· % 256)))
    ((n + 8 + 63) / 64) (pad_bytes _ hb) hpl (by omega)
  unfold sha_256
  rw [preProcess_eq_pad input n hn hin hfit, noOfChunks_eq n hfit]
  simp only [Option.bind_eq_bind, Option.some_bind]
  rw [h1]
  simp only [Option.some_bind, Option.pure_def]
  rw [digest_eq_hexEncode _ h2]
  rfl

/-! ## Shape and value of the digest string -/

theorem digitChar_mem (d : Nat) (hd : d < 16) : Nat.digitChar d ∈ lowerHexChars := by
  revert d
  decide

theorem hexCharVal_digitChar (d : Nat) (hd : d < 16) : hexCharVal (Nat.digitChar d) = d := by
  revert d
  decide

theorem hexN_mem (k w : Nat) : ∀ c ∈ hexN k w, c ∈ lowerHexChars := by
  induction k generalizing w with
  | zero => intro c hc; simp [hexN] at hc
  | succ k ih =>
    intro c hc
    rw [hexN, List.mem_append, List.mem_singleton] at hc
    rcases hc with h | h
    · exact ih _ c h
    · rw [h]; exact digitChar_mem _ (Nat.mod_lt _ (by norm_num))

theorem hexN_getElem? (k : Nat) : ∀ (w j : Nat), j < k →
    (hexN k w)[j]? = some (Nat.digitChar (w / 16 ^ (k - 1 - j) % 16)) := by
  induction k with
  | zero => intro w j hj; omega
  | succ k ih =>
    intro w j hj
    rw [hexN]
    by_cases h : j < k
    · rw [List.getElem?_append_left (by rw [hexN_length]; exact h), ih _ _ h,
        Nat.div_div_eq_div_mul]
      have e : k + 1 - 1 - j = (k - 1 - j) + 1 := by omega
      rw [e, pow_succ, Nat.mul_comm]
    · have hjk : j = k := by omega
      subst hjk
      rw [List.getElem?_append_right (by rw [hexN_length]), hexN_length]
      simp

theorem hexN_foldl (k : Nat) : ∀ (w acc : Nat),
    (hexN k w).foldl (fun acc c => 16 * acc + hexCharVal c) acc = acc * 16 ^ k + w % 16 ^ k := by
  induction k with
  | zero => intro w acc; simp [hexN, Nat.mod_one]
  | succ k ih =>
    intro w acc
    rw [hexN, List.foldl_append, ih]
    simp only [List.foldl_cons, List.foldl_nil]
    rw [hexCharVal_digitChar _ (Nat.mod_lt _ (by norm_num)), pow_succ', Nat.mod_mul]
    ring

theorem compressChunk_inRange (words : List Nat) (hs : Hash) : (compressChunk words hs).InRange := by
  unfold compressChunk Hash.InRange
  exact ⟨add32_lt _ _, add32_lt _ _, add32_lt _ _, add32_lt _ _, add32_lt _ _, add32_lt _ _,
    add32_lt _ _, add32_lt _ _⟩

theorem chunkFold_inRange (pre : List Nat) : ∀ (l : List Nat) (init hs : Hash), init.InRange →
    l.foldlM (chunkIteration pre) init = some hs → hs.InRange := by
  intro l
  induction l with
  | nil =>
    intro init hs hi h
    simp only [List.foldlM_nil, Option.pure_def, Option.some.injEq] at h
    rw [← h]; exact hi
  | cons k l ih =>
    intro init hs hi h
    rw [List.foldlM_cons] at h
    cases hc : chunkIteration pre init k with
    | none => rw [hc] at h; simp at h
    | some h' =>
      rw [hc] at h
      simp only [Option.bind_eq_bind, Option.some_bind] at h
      have hr : h'.InRange := by
        unfold chunkIteration at hc
        cases hw : chunkWords pre k with
        | none => rw [hw] at hc; simp at hc
        | some words =>
          rw [hw] at hc
          simp only [Option.bind_eq_bind, Option.some_bind, Option.pure_def,
            Option.some.injEq] at hc
          rw [← hc]; exact compressChunk_inRange _ _
      exact ih h' hs hr h

theorem sha_256_some (input : List Nat) (n : Nat) (s : String) (h : sha_256 input n = some s) :
    ∃ hs : Hash, hs.InRange ∧ s = digest hs := by
  unfold sha_256 at h
  cases hp : preProcess input n with
  | none => rw [hp] at h; simp at h
  | some pre =>
    rw [hp] at h
    simp only [Option.bind_eq_bind, Option.some_bind] at h
    cases hf : (upTo 0 (noOfChunks n) 1).foldlM (chunkIteration pre) initialHash with
    | none => rw [hf] at h; simp at h
    | some hs =>
      rw [hf] at h
      simp only [Option.some_bind, Option.pure_def, Option.some.injEq] at h
      exact ⟨hs, chunkFold_inRange pre _ _ _ initialHash_inRange hf, h.symm⟩

theorem digest_shape (hs : Hash) (hr : hs.InRange) :
    (digest hs).length = 64 ∧ ∀ c ∈ (digest hs).data, c ∈ lowerHexChars := by
  constructor
  · show (digest hs).data.length = 64
    rw [digest_data hs hr]
    simp only [List.length_append, hexN_length]
  · intro c hc
    rw [digest_data hs hr] at hc
    simp only [List.mem_append] at hc
    rcases hc with ((((((h | h) | h) | h) | h) | h) | h) | h <;> exact hexN_mem _ _ c h

theorem digest_value (hs : Hash) (hr : hs.InRange) :
    hexValue (digest hs) = hs.h0 * 2 ^ 224 + hs.h1 * 2 ^ 192 + hs.h2 * 2 ^ 160 + hs.h3 * 2 ^ 128
      + hs.h4 * 2 ^ 96 + hs.h5 * 2 ^ 64 + hs.h6 * 2 ^ 32 + hs.h7 := by
  unfold hexValue
  rw [digest_data hs hr]
  obtain ⟨r0, r1, r2, r3, r4, r5, r6, r7⟩ := hr
  simp only [List.foldl_append, hexN_foldl]
  have e : (16 : Nat) ^ 8 = 2 ^ 32 := by norm_num
  rw [e, Nat.mod_eq_of_lt r0, Nat.mod_eq_of_lt r1, Nat.mod_eq_of_lt r2, Nat.mod_eq_of_lt r3,
    Nat.mod_eq_of_lt r4, Nat.mod_eq_of_lt r5, Nat.mod_eq_of_lt r6, Nat.mod_eq_of_lt r7]
  ring

theorem digest_injective (hs hs' : Hash) (hr : hs.InRange) (hr' : hs'.InRange)
    (h : digest hs' = digest hs) : hs' = hs := by
  have hv : hexValue (digest hs') = hexValue (digest hs) := by rw [h]
  rw [digest_value hs hr, digest_value hs' hr'] at hv
  obtain ⟨r0, r1, r2, r3, r4, r5, r6, r7⟩ := hr
  obtain ⟨r0', r1', r2', r3', r4', r5', r6', r7'⟩ := hr'
  cases hs
  cases hs'
  simp only at r0 r1 r2 r3 r4 r5 r6 r7 r0' r1' r2' r3' r4' r5' r6' r7' hv
  simp only [Hash.mk.injEq]
  omega

/-! ## Known answers

The reference and `sha_256` evaluated on the example messages of the standard and on messages
of `a` repeated 55, 56, 63, 64 and 65 times, against digests computed outside this file. -/

theorem ref_abc :
    Ref.hexEncode (Ref.sha256 ("abc".toList.map Char.toNat))
      = "ba7816bf8f01cfea414140de5dae2223b00361a396177a9cb410ff61f20015ad" := by
  decide!

theorem ref_empty :
    Ref.hexEncode (Ref.sha256 ("".toList.map Char.toNat))
      = "e3b0c44298fc1c149afbf4c8996fb92427ae41e4649b934ca495991b7852b855" := by
  decide!

theorem ref_two_blocks :
    Ref.hexEncode (Ref.sha256 ("abcdbcdecdefdefgefghfghighijhijkijkljklmklmnlmnomnopnopq".toList.map Char.toNat))
      = "248d6a61d20638b8e5c026930c3e6039a33ce45964ff2167f6ecedd419db06c1" := by
  decide!

theorem sha_256_length_55 :
    sha_256 (List.replicate 55 97 ++ [0]) 56
      = some "9f4390f8d30c2dd92ec9f095b65e2b9ae9b0a925a5258e241c9f1e910f734318" := by
  decide!

theorem sha_256_length_56 :
    sha_256 (List.replicate 56 97 ++ [0]) 57
      = some "b35439a4ac6f0948b6d6f9e3c6af0f5f590ce20f1bde7090ef7970686ec6738a" := by
  decide!

theorem sha_256_length_63 :
    sha_256 (List.replicate 63 97 ++ [0]) 64
      = some "7d3e74a05d7db15bce4ad9ec0658ea98e3f06eeecf16b4c6fff2da457ddc2f34" := by
  decide!

theorem sha_256_length_64 :
    sha_256 (List.replicate 64 97 ++ [0]) 65
      = some "ffe054fe7ae0cb6dc65c3af9b61d5209f439851db43d0ba5997337df154668eb" := by
  decide!

theorem sha_256_length_65 :
    sha_256 (List.replicate 65 97 ++ [0]) 66
      = some "635361c48bb9eab14198e76ea8ab7f1a41685d6ad62aa9146d301d4f17eb0ae0" := by
  decide!

/-! ## The claims -/

/-- Claim C1: for every byte sequence `msg` whose padded size `64 * ceil((m + 9) / 64)` fits in
a signed 32-bit `int`, `sha_256` called the way `main` calls it (the message followed by one
terminator byte `t`, and `n = m + 1`) returns the lowercase hexadecimal text of the FIPS 180-4
digest of `msg` as `Ref.sha256` defines it, and that text has 64 characters. Messages of 55, 56,
63, 64 and 65 bytes are instances. -/
theorem sha_256_matches_fips (msg : List Nat) (t : Nat) (hb : ∀ b ∈ msg, b < 256)
    (hfit : 64 * ((msg.length + 9 + 63) / 64) ≤ 2 ^ 31 - 1) :
    sha_256 (msg ++ [t]) (msg.length + 1) = some (Ref.hexEncode (Ref.sha256 msg)) ∧
    (Ref.hexEncode (Ref.sha256 msg)).length = 64 := by
  have h := sha_256_eq_ref (msg ++ [t]) (msg.length + 1) (by omega) (by simp) (by omega)
  have hm : ((msg ++ [t]).take (msg.length + 1 - 1)).map (· % 256) = msg := by
    rw [Nat.add_sub_cancel, List.take_left']
    · apply List.ext_getElem?
      intro i
      rw [List.getElem?_map]
      cases hi : msg[i]? with
      | none => rfl
      | some b =>
        simp only [Option.map_some', Option.some.injEq]
        exact Nat.mod_eq_of_lt (hb b (List.getElem?_mem hi))
    · rfl
  rw [hm] at h
  refine ⟨h, ?_⟩
  simp [Ref.hexEncode, Ref.sha256, Ref.wordBytes, String.length]

/-- Witness of C1 at the 56-byte message `aaa...a`, one of the lengths at a chunk boundary. -/
theorem sha_256_matches_fips_witness :
    (∀ b ∈ List.replicate 56 97, b < 256) ∧
    64 * (((List.replicate 56 97).length + 9 + 63) / 64) ≤ 2 ^ 31 - 1 ∧
    sha_256 (List.replicate 56 97 ++ [0]) ((List.replicate 56 97).length + 1)
      = some (Ref.hexEncode (Ref.sha256 (List.replicate 56 97))) ∧
    (Ref.hexEncode (Ref.sha256 (List.replicate 56 97))).length = 64 :=
  ⟨by decide, by decide, sha_256_matches_fips (List.replicate 56 97) 0 (by decide) (by decide)⟩

/-- Claim C2: hashing the 3-byte message `abc` (`sha_256` called with the bytes of `abc`, the
terminator, and `n = 4`) returns `ba7816bf...f20015ad`. -/
theorem sha_256_abc_vector :
    sha_256 ("abc".toList.map Char.toNat ++ [0]) 4
      = some "ba7816bf8f01cfea414140de5dae2223b00361a396177a9cb410ff61f20015ad" := by
  decide!

/-- Claim C3: hashing the empty message (`sha_256` called with an input that holds only the
terminator, and `n = 1`) returns `e3b0c442...7852b855`. -/
theorem sha_256_empty_vector :
    sha_256 [0] 1 = some "e3b0c44298fc1c149afbf4c8996fb92427ae41e4649b934ca495991b7852b855" := by
  decide!

/-- Claim C4: the digest string `sha_256` returns has exactly 64 characters, each one of `0-9`
or `a-f`. For an input buffer that holds the `n - 1` message bytes, with `n >= 1` and a padded
size that fits an `int`, `sha_256` does return such a string; for any arguments at all, a string
it returns has this shape; and `toHex` gives exactly 8 such characters for every 32-bit word. -/
theorem sha_256_output_shape (input : List Nat) (n : Nat) (hn : 1 ≤ n)
    (hin : n - 1 ≤ input.length) (hfit : 64 * ((n + 8 + 63) / 64) ≤ 2 ^ 31 - 1) :
    (∃ s, sha_256 input n = some s ∧ s.length = 64 ∧ ∀ c ∈ s.data, c ∈ lowerHexChars) ∧
    (∀ input' n' s', sha_256 input' n' = some s' →
      s'.length = 64 ∧ ∀ c ∈ s'.data, c ∈ lowerHexChars) ∧
    (∀ w, (toHex (w % 2 ^ 32)).length = 8 ∧ ∀ c ∈ (toHex (w % 2 ^ 32)).data, c ∈ lowerHexChars) := by
  have hall : ∀ input' n' s', sha_256 input' n' = some s' →
      s'.length = 64 ∧ ∀ c ∈ s'.data, c ∈ lowerHexChars := by
    intro input' n' s' h
    obtain ⟨hs, hr, rfl⟩ := sha_256_some input' n' s' h
    exact digest_shape hs hr
  refine ⟨?_, hall, ?_⟩
  · have h := sha_256_eq_ref input n hn hin hfit
    exact ⟨_, h, hall _ _ _ h⟩
  · intro w
    have hw : w % 2 ^ 32 < 2 ^ 32 := Nat.mod_lt _ (by norm_num)
    constructor
    · show (toHex (w % 2 ^ 32)).data.length = 8
      rw [toHex_data _ hw, hexN_length]
    · intro c hc
      rw [toHex_data _ hw] at hc
      exact hexN_mem _ _ c hc

/-- Witness of C4 at the empty message: the input holds the terminator only and `n = 1`. -/
theorem sha_256_output_shape_witness :
    1 ≤ 1 ∧ 1 - 1 ≤ [0].length ∧ 64 * ((1 + 8 + 63) / 64) ≤ 2 ^ 31 - 1 ∧
    ((∃ s, sha_256 [0] 1 = some s ∧ s.length = 64 ∧ ∀ c ∈ s.data, c ∈ lowerHexChars) ∧
    (∀ input' n' s', sha_256 input' n' = some s' →
      s'.length = 64 ∧ ∀ c ∈ s'.data, c ∈ lowerHexChars) ∧
    (∀ w, (toHex (w % 2 ^ 32)).length = 8 ∧
      ∀ c ∈ (toHex (w % 2 ^ 32)).data, c ∈ lowerHexChars)) :=
  ⟨by decide, by decide, by decide,
    sha_256_output_shape [0] 1 (by decide) (by decide) (by decide)⟩

/-- Claim C5, as amended: for every message length `m` whose padded size `64 * ceil((m + 9) / 64)`
fits in a signed 32-bit `int`, the padded buffer has length `64 * noOfChunks` with
`noOfChunks = ceil((m + 9) / 64)`, a positive multiple of 64, the least one that is at least
`m + 9`, and the separator index `m` lies strictly before the last 8 bytes. -/
theorem padded_length_within_int (m : Nat) (hfit : 64 * ((m + 9 + 63) / 64) ≤ 2 ^ 31 - 1) :
    PaddedLength m := by
  have hc := noOfChunks_eq (m + 1) (by omega)
  have hbytes := noOfBytes_eq (m + 1) (by omega)
  have e : (m + 1 + 8 + 63) / 64 = (m + 9 + 63) / 64 := by omega
  rw [e] at hc hbytes
  have hs : toSizeT (noOfBytes (m + 1)) = 64 * ((m + 9 + 63) / 64) := by
    rw [hbytes, toSizeT_natCast _ (by omega)]
  unfold PaddedLength
  rw [hs, hc]
  refine ⟨rfl, rfl, by omega, by omega, ?_, by omega⟩
  intro k hk
  omega

/-- Witness of the amended C5 at `m = 56`. -/
theorem padded_length_within_int_witness :
    64 * ((56 + 9 + 63) / 64) ≤ 2 ^ 31 - 1 ∧ PaddedLength 56 :=
  ⟨by decide, padded_length_within_int 56 (by decide)⟩

/-- Counterexample to C5 as stated: for a message of `2^32` bytes (`n = 2^32 + 1`) the
`unsigned int` product `noOfChunks * 64` wraps, `noOfBytes` is 64, and the 64-byte buffer is
neither `64 * noOfChunks` bytes long nor long enough for `m + 9` bytes. -/
theorem padded_length_wraps :
    noOfChunks (2 ^ 32 + 1) = 2 ^ 26 + 1 ∧ toSizeT (noOfBytes (2 ^ 32 + 1)) = 64 ∧
    ¬ PaddedLength (2 ^ 32) :=
  ⟨by decide!, by decide!, fun h => absurd h.2.2.2.1 (by decide!)⟩

/-- Claim C6: for every message `msg` of `m` bytes (call with `n = m + 1`, padded size `L` that
fits an `int`), the padding stage returns a buffer of `L` bytes in which bytes `0..m-1` are the
message, byte `m` is `0x80`, bytes `m+1..L-9` are zero, and the last 8 bytes are the big-endian
64-bit encoding of `8 * m` (most significant byte at `L - 8`). -/
theorem preProcess_layout (msg : List Nat) (t : Nat) (hb : ∀ b ∈ msg, b < 256)
    (hfit : 64 * ((msg.length + 9 + 63) / 64) ≤ 2 ^ 31 - 1) :
    ∃ buf, preProcess (msg ++ [t]) (msg.length + 1) = some buf ∧
      buf.length = 64 * ((msg.length + 9 + 63) / 64) ∧
      (∀ i, i < msg.length → buf[i]? = msg[i]?) ∧
      buf[msg.length]? = some 0x80 ∧
      (∀ i, msg.length < i → i < 64 * ((msg.length + 9 + 63) / 64) - 8 → buf[i]? = some 0) ∧
      (∀ k, k < 8 → buf[64 * ((msg.length + 9 + 63) / 64) - 8 + k]?
        = some (8 * msg.length / 256 ^ (7 - k) % 256)) := by
  obtain ⟨buf, hbuf, hl, hg⟩ := preProcess_spec (msg ++ [t]) (msg.length + 1) (by omega)
    (by simp) (by omega)
  have e : (msg.length + 1 + 8 + 63) / 64 = (msg.length + 9 + 63) / 64 := by omega
  simp only [Nat.add_sub_cancel, e] at hg hl
  refine ⟨buf, hbuf, hl, ?_, ?_, ?_, ?_⟩
  · intro i hi
    rw [hg i, if_pos hi, List.getElem?_append_left hi, List.getElem?_eq_getElem hi]
    simp only [Option.map_some']
    rw [Nat.mod_eq_of_lt (hb _ (List.getElem_mem _))]
  · rw [hg, if_neg (by omega), if_pos rfl]
  · intro i h1 h2
    rw [hg i, if_neg (by omega), if_neg (by omega), if_pos h2]
  · intro k hk
    rw [hg, if_neg (by omega), if_neg (by omega), if_neg (by omega), if_pos (by omega)]
    congr 4
    omega

/-- Witness of C6 at the message `abc`. -/
theorem preProcess_layout_witness :
    (∀ b ∈ [97, 98, 99], b < 256) ∧ 64 * (([97, 98, 99].length + 9 + 63) / 64) ≤ 2 ^ 31 - 1 ∧
    ∃ buf, preProcess ([97, 98, 99] ++ [0]) ([97, 98, 99].length + 1) = some buf ∧
      buf.length = 64 * (([97, 98, 99].length + 9 + 63) / 64) ∧
      (∀ i, i < [97, 98, 99].length → buf[i]? = [97, 98, 99][i]?) ∧
      buf[[97, 98, 99].length]? = some 0x80 ∧
      (∀ i, [97, 98, 99].length < i → i < 64 * (([97, 98, 99].length + 9 + 63) / 64) - 8 →
        buf[i]? = some 0) ∧
      (∀ k, k < 8 → buf[64 * (([97, 98, 99].length + 9 + 63) / 64) - 8 + k]?
        = some (8 * [97, 98, 99].length / 256 ^ (7 - k) % 256)) :=
  ⟨by decide, by decide, preProcess_layout [97, 98, 99] 0 (by decide) (by decide)⟩

/-- Claim C7: for every padded buffer `pre` (bytes, a whole number of 64-byte chunks, size within
`int`) and every chunk index `chunk` inside it, `convertChunkTo32BitWordArray(pre, 64, chunk,
words)` on a 64-word array succeeds, sets `words[i]` for `i` in `0..15` to the big-endian value
`b[4i]*2^24 + b[4i+1]*2^16 + b[4i+2]*2^8 + b[4i+3]` with `b[j] = pre[64*chunk + j]`, and leaves
every other entry of `words` as it was. -/
theorem convertChunk_big_endian (pre : List Nat) (chunk : Nat) (words : List Nat)
    (hb : ∀ b ∈ pre, b < 256) (hlen : 64 * chunk + 64 ≤ pre.length)
    (hint : pre.length ≤ 2 ^ 31 - 1) (hw : words.length = 64) :
    ∃ r, convertChunkTo32BitWordArray pre 64 chunk words = some r ∧ r.length = 64 ∧
      (∀ i, i < 16 → r[i]? = some (pre.getD (64 * chunk + 4 * i) 0 * 2 ^ 24
        + pre.getD (64 * chunk + 4 * i + 1) 0 * 2 ^ 16
        + pre.getD (64 * chunk + 4 * i + 2) 0 * 2 ^ 8 + pre.getD (64 * chunk + 4 * i + 3) 0)) ∧
      (∀ i, 16 ≤ i → r[i]? = words[i]?) := by
  obtain ⟨r, hr, hl, hg⟩ := convertChunk_spec pre chunk words hb hlen hint (by omega)
  refine ⟨r, hr, by rw [hl, hw], ?_, ?_⟩
  · intro i hi
    rw [hg i, if_pos hi]
  · intro i hi
    rw [hg i, if_neg (by omega)]

/-- Witness of C7: chunk 1 of a 128-byte buffer of bytes `0x61`, into a zeroed word array. -/
theorem convertChunk_big_endian_witness :
    (∀ b ∈ List.replicate 128 97, b < 256) ∧ 64 * 1 + 64 ≤ (List.replicate 128 97).length ∧
    (List.replicate 128 97).length ≤ 2 ^ 31 - 1 ∧ (List.replicate 64 0).length = 64 ∧
    ∃ r, convertChunkTo32BitWordArray (List.replicate 128 97) 64 1 (List.replicate 64 0) = some r ∧
      r.length = 64 ∧
      (∀ i, i < 16 → r[i]? = some ((List.replicate 128 97).getD (64 * 1 + 4 * i) 0 * 2 ^ 24
        + (List.replicate 128 97).getD (64 * 1 + 4 * i + 1) 0 * 2 ^ 16
        + (List.replicate 128 97).getD (64 * 1 + 4 * i + 2) 0 * 2 ^ 8
        + (List.replicate 128 97).getD (64 * 1 + 4 * i + 3) 0)) ∧
      (∀ i, 16 ≤ i → r[i]? = (List.replicate 64 0)[i]?) :=
  ⟨by decide!, by decide!, by decide!, by decide!,
    convertChunk_big_endian (List.replicate 128 97) 1 (List.replicate 64 0) (by decide!)
      (by decide!) (by decide!) (by decide!)⟩

/-- Claim C8: for every chunk of a padded buffer, the word array after the conversion and the
schedule loop has 64 entries; for every `i` from 16 to 63,
`w[i] = (w[i-16] + s0 + w[i-7] + s1) mod 2^32` with
`s0 = rotr(w[i-15],7) xor rotr(w[i-15],18) xor (w[i-15] >> 3)` and
`s1 = rotr(w[i-2],17) xor rotr(w[i-2],19) xor (w[i-2] >> 10)`, where `rotr` is the rotation
`Ref.rotr`; and words `0..15` are the 16 big-endian words of the chunk. -/
theorem chunkWords_recurrence (pre : List Nat) (chunk : Nat) (hb : ∀ b ∈ pre, b < 256)
    (hlen : 64 * chunk + 64 ≤ pre.length) (hint : pre.length ≤ 2 ^ 31 - 1) :
    ∃ w, chunkWords pre chunk = some w ∧ w.length = 64 ∧
      (∀ i, 16 ≤ i → i < 64 → w.getD i 0 =
        (w.getD (i - 16) 0
          + (Ref.rotr (w.getD (i - 15) 0) 7 ^^^ Ref.rotr (w.getD (i - 15) 0) 18
              ^^^ (w.getD (i - 15) 0 >>> 3))
          + w.getD (i - 7) 0
          + (Ref.rotr (w.getD (i - 2) 0) 17 ^^^ Ref.rotr (w.getD (i - 2) 0) 19
              ^^^ (w.getD (i - 2) 0 >>> 10))) % 2 ^ 32) ∧
      (∀ i, i < 16 → w.getD i 0 = pre.getD (64 * chunk + 4 * i) 0 * 2 ^ 24
        + pre.getD (64 * chunk + 4 * i + 1) 0 * 2 ^ 16
        + pre.getD (64 * chunk + 4 * i + 2) 0 * 2 ^ 8 + pre.getD (64 * chunk + 4 * i + 3) 0) := by
  obtain ⟨w0, hw0, hl0, hg0⟩ := convertChunk_spec pre chunk (List.replicate 64 0) hb hlen hint
    (by simp)
  rw [List.length_replicate] at hl0
  have hlt : ∀ j, pre.getD j 0 < 256 := by
    intro j
    rw [List.getD_eq_getElem?_getD]
    cases h : pre[j]? with
    | none => simp
    | some b => simpa using hb b (List.getElem?_mem h)
  have hbd : ∀ x ∈ w0.take 16, x < 2 ^ 32 := by
    intro x hx
    obtain ⟨i, hi⟩ := List.mem_iff_getElem?.1 hx
    rw [List.getElem?_take] at hi
    by_cases h16 : i < 16
    · rw [if_pos h16, hg0 i, if_pos h16] at hi
      have h0 := hlt (64 * chunk + 4 * i)
      have h1 := hlt (64 * chunk + 4 * i + 1)
      have h2 := hlt (64 * chunk + 4 * i + 2)
      have h3 := hlt (64 * chunk + 4 * i + 3)
      injection hi with hi
      omega
    · rw [if_neg h16] at hi
      exact absurd hi (by simp)
  obtain ⟨hfl, -, -⟩ := scheduleFold_take w0 hl0 hbd 48 (by omega)
  obtain ⟨h16, hrec⟩ := scheduleFold_pointwise w0 hl0 hbd 48 (by omega)
  have e : upTo 16 64 1 = List.range' 16 48 := by decide
  refine ⟨scheduleLoop w0, ?_, ?_, ?_, ?_⟩
  · unfold chunkWords
    rw [hw0]
    rfl
  · unfold scheduleLoop
    rw [e]; exact hfl
  · intro i hi1 hi2
    unfold scheduleLoop
    rw [e, hrec i hi1 (by omega)]
    unfold Ref.smallSigma0 Ref.smallSigma1 Ref.shr
    simp only [Nat.shiftRight_eq_div_pow]
    omega
  · intro i hi
    unfold scheduleLoop
    rw [e, h16 i hi, List.getD_eq_getElem?_getD, hg0 i, if_pos hi]
    rfl

/-- Witness of C8: chunk 0 of a 64-byte buffer of bytes `0x61`. -/
theorem chunkWords_recurrence_witness :
    (∀ b ∈ List.replicate 64 97, b < 256) ∧ 64 * 0 + 64 ≤ (List.replicate 64 97).length ∧
    (List.replicate 64 97).length ≤ 2 ^ 31 - 1 ∧
    ∃ w, chunkWords (List.replicate 64 97) 0 = some w ∧ w.length = 64 ∧
      (∀ i, 16 ≤ i → i < 64 → w.getD i 0 =
        (w.getD (i - 16) 0
          + (Ref.rotr (w.getD (i - 15) 0) 7 ^^^ Ref.rotr (w.getD (i - 15) 0) 18
              ^^^ (w.getD (i - 15) 0 >>> 3))
          + w.getD (i - 7) 0
          + (Ref.rotr (w.getD (i - 2) 0) 17 ^^^ Ref.rotr (w.getD (i - 2) 0) 19
              ^^^ (w.getD (i - 2) 0 >>> 10))) % 2 ^ 32) ∧
      (∀ i, i < 16 → w.getD i 0 = (List.replicate 64 97).getD (64 * 0 + 4 * i) 0 * 2 ^ 24
        + (List.replicate 64 97).getD (64 * 0 + 4 * i + 1) 0 * 2 ^ 16
        + (List.replicate 64 97).getD (64 * 0 + 4 * i + 2) 0 * 2 ^ 8
        + (List.replicate 64 97).getD (64 * 0 + 4 * i + 3) 0) :=
  ⟨by decide, by decide, by decide,
    chunkWords_recurrence (List.replicate 64 97) 0 (by decide) (by decide) (by decide)⟩

/-- Claim C9: for every 64-word schedule `words` and every state `hs` of eight 32-bit words, one
chunk iteration of `sha_256` (working variables from `hs`, the compression loop, the update of
the hash values) computes `Ref.compress words hs`: 64 rounds `Ref.round` in the order
`i = 0..63`, each with `t1 = (h + S1 + ch + K[i] + words[i]) mod 2^32`,
`t2 = (S0 + maj) mod 2^32` and the new variables `(t1 + t2, a, b, c, d + t1, e, f, g)` formed
from the old ones, followed by the word-by-word addition to `hs` modulo `2^32`. -/
theorem compressChunk_refines (words : List Nat) (hs : Hash) (hr : hs.InRange) :
    compressChunk words hs = Ref.compress words hs ∧ (compressChunk words hs).InRange :=
  ⟨compressChunk_eq words hs hr, compressChunk_inRange words hs⟩

/-- Witness of C9: the initial hash values and a schedule of 64 zero words. -/
theorem compressChunk_refines_witness :
    initialHash.InRange ∧
    compressChunk (List.replicate 64 0) initialHash
      = Ref.compress (List.replicate 64 0) initialHash ∧
    (compressChunk (List.replicate 64 0) initialHash).InRange :=
  ⟨initialHash_inRange, compressChunk_refines (List.replicate 64 0) initialHash initialHash_inRange⟩

/-- Claim C10: for every final state of eight 32-bit words, the string `sha_256` returns is the
concatenation of `toHex h0`, ..., `toHex h7` in this order; `toHex` of a 32-bit word is exactly
8 lowercase hexadecimal digits, most significant first, zero-padded on the left; the 64
characters read as one base-16 number give `h0*2^224 + h1*2^192 + ... + h7`; and two states
with the same string are equal. -/
theorem digest_concatenation (hs : Hash) (hr : hs.InRange) :
    digest hs = toHex hs.h0 ++ toHex hs.h1 ++ toHex hs.h2 ++ toHex hs.h3
      ++ toHex hs.h4 ++ toHex hs.h5 ++ toHex hs.h6 ++ toHex hs.h7 ∧
    (∀ w, w < 2 ^ 32 → (toHex w).length = 8 ∧
      ∀ j, j < 8 → (toHex w).data[j]? = some (Nat.digitChar (w / 16 ^ (7 - j) % 16))) ∧
    (digest hs).length = 64 ∧
    hexValue (digest hs) = hs.h0 * 2 ^ 224 + hs.h1 * 2 ^ 192 + hs.h2 * 2 ^ 160 + hs.h3 * 2 ^ 128
      + hs.h4 * 2 ^ 96 + hs.h5 * 2 ^ 64 + hs.h6 * 2 ^ 32 + hs.h7 ∧
    (∀ hs' : Hash, hs'.InRange → digest hs' = digest hs → hs' = hs) := by
  refine ⟨?_, ?_, (digest_shape hs hr).1, digest_value hs hr, ?_⟩
  · apply String.ext
    simp [digest, strcat]
  · intro w hw
    constructor
    · show (toHex w).data.length = 8
      rw [toHex_data w hw, hexN_length]
    · intro j hj
      rw [toHex_data w hw, hexN_getElem? 8 w j hj]
  · intro hs' hr' h
    exact digest_injective hs hs' hr hr' h

/-- Witness of C10 at the initial hash values. -/
theorem digest_concatenation_witness :
    initialHash.InRange ∧
    (digest initialHash = toHex initialHash.h0 ++ toHex initialHash.h1 ++ toHex initialHash.h2
      ++ toHex initialHash.h3 ++ toHex initialHash.h4 ++ toHex initialHash.h5
      ++ toHex initialHash.h6 ++ toHex initialHash.h7 ∧
    (∀ w, w < 2 ^ 32 → (toHex w).length = 8 ∧
      ∀ j, j < 8 → (toHex w).data[j]? = some (Nat.digitChar (w / 16 ^ (7 - j) % 16))) ∧
    (digest initialHash).length = 64 ∧
    hexValue (digest initialHash) = initialHash.h0 * 2 ^ 224 + initialHash.h1 * 2 ^ 192
      + initialHash.h2 * 2 ^ 160 + initialHash.h3 * 2 ^ 128
      + initialHash.h4 * 2 ^ 96 + initialHash.h5 * 2 ^ 64 + initialHash.h6 * 2 ^ 32
      + initialHash.h7 ∧
    (∀ hs' : Hash, hs'.InRange → digest hs' = digest initialHash → hs' = initialHash)) :=
  ⟨initialHash_inRange, digest_concatenation initialHash initialHash_inRange⟩

/-! ## The constants against the roots of the primes -/

theorem isPrime_iff (p : Nat) : isPrime p = true ↔ Nat.Prime p := by
  unfold isPrime
  rw [Nat.prime_def_lt']
  simp only [Bool.and_eq_true, decide_eq_true_eq, List.all_eq_true, List.mem_range,
    Bool.or_eq_true, ne_eq]
  constructor
  · rintro ⟨h2, h⟩
    refine ⟨h2, fun m hm hmp hdvd => ?_⟩
    rcases h m hmp with h' | h'
    · omega
    · exact h' (Nat.mod_eq_zero_of_dvd hdvd)
  · rintro ⟨h2, h⟩
    refine ⟨h2, fun d hd => ?_⟩
    by_cases h' : d < 2
    · exact Or.inl h'
    · exact Or.inr (fun hmod => h d (by omega) hd (Nat.dvd_of_mod_eq_zero hmod))

theorem mem_primesBelow (bound p : Nat) : p ∈ primesBelow bound ↔ p < bound ∧ Nat.Prime p := by
  unfold primesBelow
  rw [List.mem_filter, List.mem_range, isPrime_iff]

theorem primesBelow_increasing (bound : Nat) : List.Pairwise (· < ·) (primesBelow bound) :=
  (List.pairwise_lt_range bound).filter _

/-- Claim C13: `ROUND_CONSTANTS` has exactly 64 entries; the list of the primes up to 311, in
increasing order, has 64 entries too; and for every `i` in `0..63`, with `p` the `(i+1)`-th
prime, `r = floor(cbrt(p))` and `k = ROUND_CONSTANTS[i]`, `k` is a 32-bit value with
`(r*2^32 + k)^3 <= p * 2^96 < (r*2^32 + k + 1)^3`: `k` is the first 32 bits of the fractional
part of the cube root of `p`. -/
theorem round_constants_cube_roots :
    ROUND_CONSTANTS.length = 64 ∧ (primesBelow 312).length = 64 ∧
    (∀ p, p ∈ primesBelow 312 ↔ p < 312 ∧ Nat.Prime p) ∧
    List.Pairwise (· < ·) (primesBelow 312) ∧
    ∀ i, i < 64 → ∃ r, r < 8 ∧
      r ^ 3 ≤ (primesBelow 312).getD i 0 ∧ (primesBelow 312).getD i 0 < (r + 1) ^ 3 ∧
      ROUND_CONSTANTS.getD i 0 < 2 ^ 32 ∧
      (r * 2 ^ 32 + ROUND_CONSTANTS.getD i 0) ^ 3 ≤ (primesBelow 312).getD i 0 * 2 ^ 96 ∧
      (primesBelow 312).getD i 0 * 2 ^ 96 < (r * 2 ^ 32 + ROUND_CONSTANTS.getD i 0 + 1) ^ 3 :=
  ⟨by decide, by decide!, mem_primesBelow 312, primesBelow_increasing 312, by decide!⟩

/-- Claim C20: the eight initial hash values are the first 32 bits of the fractional parts of
the square roots of the first eight primes `2, 3, 5, 7, 11, 13, 17, 19`: for each `j` in `0..7`,
with `p` the `(j+1)`-th prime, `r = floor(sqrt(p))` and `k = h_j`, `k` is a 32-bit value with
`(r*2^32 + k)^2 <= p * 2^64 < (r*2^32 + k + 1)^2`. -/
theorem initial_hash_square_roots :
    primesBelow 20 = [2, 3, 5, 7, 11, 13, 17, 19] ∧
    (∀ p, p ∈ primesBelow 20 ↔ p < 20 ∧ Nat.Prime p) ∧
    ∀ j, j < 8 → ∃ r, r < 5 ∧
      r ^ 2 ≤ (primesBelow 20).getD j 0 ∧ (primesBelow 20).getD j 0 < (r + 1) ^ 2 ∧
      [initialHash.h0, initialHash.h1, initialHash.h2, initialHash.h3, initialHash.h4,
        initialHash.h5, initialHash.h6, initialHash.h7].getD j 0 < 2 ^ 32 ∧
      (r * 2 ^ 32 + [initialHash.h0, initialHash.h1, initialHash.h2, initialHash.h3,
        initialHash.h4, initialHash.h5, initialHash.h6, initialHash.h7].getD j 0) ^ 2
        ≤ (primesBelow 20).getD j 0 * 2 ^ 64 ∧
      (primesBelow 20).getD j 0 * 2 ^ 64 < (r * 2 ^ 32 + [initialHash.h0, initialHash.h1,
        initialHash.h2, initialHash.h3, initialHash.h4, initialHash.h5, initialHash.h6,
        initialHash.h7].getD j 0 + 1) ^ 2 :=
  ⟨by decide!, mem_primesBelow 20, by decide!⟩

/-! ## `rightRotate` bit by bit -/

theorem rightRotate_testBit (x c i : Nat) (hx : x < 2 ^ 32) (hc0 : 0 < c) (hc : c < 32)
    (hi : i < 32) : (rightRotate x c).testBit i = x.testBit ((i + c) % 32) := by
  unfold rightRotate
  rw [Nat.testBit_or, Nat.testBit_shiftRight, Nat.testBit_mod_two_pow, Nat.testBit_shiftLeft]
  by_cases h : i + c < 32
  · rw [Nat.mod_eq_of_lt h, Nat.add_comm c i]
    simp
    intro _ h'
    omega
  · have hhigh : x.testBit (c + i) = false :=
      Nat.testBit_lt_two_pow (lt_of_lt_of_le hx (Nat.pow_le_pow_right (by norm_num) (by omega)))
    have e : (i + c) % 32 = i - (32 - c) := by omega
    rw [hhigh, e]
    simp [hi]
    intro h'
    omega

theorem rightRotate_testBit_high (x c i : Nat) (hx : x < 2 ^ 32) (hi : 32 ≤ i) :
    (rightRotate x c).testBit i = false :=
  Nat.testBit_lt_two_pow
    (lt_of_lt_of_le (rightRotate_lt x c hx) (Nat.pow_le_pow_right (by norm_num) hi))

theorem rotation_perm (c : Nat) (hc : c < 32) :
    ((List.range 32).map (fun i => (i + c) % 32)).Perm (List.range 32) := by
  interval_cases c <;> decide

theorem bitCount_rightRotate (x c : Nat) (hx : x < 2 ^ 32) (hc0 : 0 < c) (hc : c < 32) :
    bitCount (rightRotate x c) = bitCount x := by
  unfold bitCount
  have h1 : (List.range 32).countP (fun i => (rightRotate x c).testBit i)
      = (List.range 32).countP ((fun i => x.testBit i) ∘ (fun i => (i + c) % 32)) := by
    apply List.countP_congr
    intro i hi
    rw [List.mem_range] at hi
    simp only [Function.comp_apply, rightRotate_testBit x c i hx hc0 hc hi]
  rw [h1, ← List.countP_map]
  exact (rotation_perm c hc).countP_eq _

theorem rightRotate_inverse (x c : Nat) (hx : x < 2 ^ 32) (hc0 : 0 < c) (hc : c < 32) :
    rightRotate (rightRotate x c) (32 - c) = x := by
  apply Nat.eq_of_testBit_eq
  intro i
  by_cases hi : i < 32
  · rw [rightRotate_testBit _ _ _ (rightRotate_lt x c hx) (by omega) (by omega) hi,
      rightRotate_testBit _ _ _ hx hc0 hc (Nat.mod_lt _ (by norm_num))]
    congr 1
    omega
  · rw [rightRotate_testBit_high _ _ _ (rightRotate_lt x c hx) (by omega)]
    exact (Nat.testBit_lt_two_pow
      (lt_of_lt_of_le hx (Nat.pow_le_pow_right (by norm_num) (by omega)))).symm

/-- Claim C16: for every 32-bit word `x` and every `c` with `0 < c < 32`, `rightRotate(x, c)`
is the bitwise right rotation of `x` by `c`: it is a 32-bit word, bit `i` of it is bit
`(i + c) mod 32` of `x` for every `i` in `0..31`, it has as many set bits as `x`, and
`rightRotate(rightRotate(x, c), 32 - c) = x`. -/
theorem rightRotate_is_rotation (x c : Nat) (hx : x < 2 ^ 32) (hc0 : 0 < c) (hc : c < 32) :
    rightRotate x c < 2 ^ 32 ∧
    (∀ i, i < 32 → (rightRotate x c).testBit i = x.testBit ((i + c) % 32)) ∧
    bitCount (rightRotate x c) = bitCount x ∧
    rightRotate (rightRotate x c) (32 - c) = x :=
  ⟨rightRotate_lt x c hx, fun i hi => rightRotate_testBit x c i hx hc0 hc hi,
    bitCount_rightRotate x c hx hc0 hc, rightRotate_inverse x c hx hc0 hc⟩

/-- Witness of C16 at `x = 0x80000001` and `c = 7`. -/
theorem rightRotate_is_rotation_witness :
    0x80000001 < 2 ^ 32 ∧ 0 < 7 ∧ 7 < 32 ∧
    (rightRotate 0x80000001 7 < 2 ^ 32 ∧
    (∀ i, i < 32 → (rightRotate 0x80000001 7).testBit i = (0x80000001).testBit ((i + 7) % 32)) ∧
    bitCount (rightRotate 0x80000001 7) = bitCount 0x80000001 ∧
    rightRotate (rightRotate 0x80000001 7) (32 - 7) = 0x80000001) :=
  ⟨by decide, by decide, by decide,
    rightRotate_is_rotation 0x80000001 7 (by decide) (by decide) (by decide)⟩

/-! ## The hash state as a fold; dependence on the input -/

theorem foldlM_congr_mem {σ : Type} (f g : σ → Nat → Option σ) :
    ∀ (l : List Nat) (init : σ), (∀ a ∈ l, ∀ s, f s a = g s a) →
      l.foldlM f init = l.foldlM g init := by
  intro l
  induction l with
  | nil => intro init _; rfl
  | cons a l ih =>
    intro init h
    rw [List.foldlM_cons, List.foldlM_cons, h a (List.mem_cons_self _ _) init]
    cases g init a with
    | none => rfl
    | some s =>
      simp only [Option.bind_eq_bind, Option.some_bind]
      exact ih s (fun a' ha' => h a' (List.mem_cons_of_mem _ ha'))

theorem preProcess_congr (input1 input2 : List Nat) (n : Nat)
    (h : ∀ i, i < (n + 2 ^ 64 - 1) % 2 ^ 64 → input1[i]? = input2[i]?) :
    preProcess input1 n = preProcess input2 n := by
  unfold preProcess
  have hf : (upTo 0 ((n + 2 ^ 64 - 1) % 2 ^ 64) 1).foldlM
      (fun pre i => do
        let ch ← input1[i]?
        writeAt pre i (ch % 256)) (List.replicate (toSizeT (noOfBytes n)) 0)
      = (upTo 0 ((n + 2 ^ 64 - 1) % 2 ^ 64) 1).foldlM
      (fun pre i => do
        let ch ← input2[i]?
        writeAt pre i (ch % 256)) (List.replicate (toSizeT (noOfBytes n)) 0) := by
    apply foldlM_congr_mem
    intro i hi s
    rw [upTo_one] at hi
    have hlt : i < (n + 2 ^ 64 - 1) % 2 ^ 64 := by
      have := (List.mem_range'_1.1 hi).2
      omega
    rw [h i hlt]
  simp only [hf]

theorem finalHash_congr (input1 input2 : List Nat) (n : Nat)
    (h : ∀ i, i < (n + 2 ^ 64 - 1) % 2 ^ 64 → input1[i]? = input2[i]?) :
    finalHash input1 n = finalHash input2 n := by
  unfold finalHash
  rw [preProcess_congr input1 input2 n h]

theorem sha_256_eq_finalHash (input : List Nat) (n : Nat) :
    sha_256 input n = (finalHash input n).map digest := by
  unfold sha_256 finalHash
  cases preProcess input n with
  | none => rfl
  | some pre =>
    simp only [Option.bind_eq_bind, Option.some_bind]
    cases (upTo 0 (noOfChunks n) 1).foldlM (chunkIteration pre) initialHash with
    | none => rfl
    | some hs => rfl

theorem getElem?_of_take_eq (input1 input2 : List Nat) (k i : Nat) (hi : i < k)
    (h : input1.take k = input2.take k) : input1[i]? = input2[i]? := by
  have h1 : (input1.take k)[i]? = input1[i]? := by rw [List.getElem?_take, if_pos hi]
  have h2 : (input2.take k)[i]? = input2[i]? := by rw [List.getElem?_take, if_pos hi]
  rw [← h1, ← h2, h]

/-- Claim C12: for every `n >= 1` and any two input buffers that agree on their first `n - 1`
bytes, `sha_256(input, n)` gives the same result, whatever the byte `input[n-1]` and what
follows it; and when the buffers hold the `n - 1` message bytes and the padded size fits an
`int`, that result is a digest string, the FIPS 180-4 digest of those `n - 1` bytes. -/
theorem sha_256_deterministic (input1 input2 : List Nat) (n : Nat) (hn : 1 ≤ n)
    (hagree : input1.take (n - 1) = input2.take (n - 1)) :
    sha_256 input1 n = sha_256 input2 n ∧
    (n - 1 ≤ input1.length → 64 * ((n + 8 + 63) / 64) ≤ 2 ^ 31 - 1 →
      ∃ s, sha_256 input1 n = some s ∧ sha_256 input2 n = some s ∧
        s = Ref.hexEncode (Ref.sha256 ((input1.take (n - 1)).map (· % 256)))) := by
  have hget : ∀ i, i < (n + 2 ^ 64 - 1) % 2 ^ 64 → input1[i]? = input2[i]? := by
    intro i hi
    have hle : (n + 2 ^ 64 - 1) % 2 ^ 64 ≤ n - 1 := by omega
    exact getElem?_of_take_eq input1 input2 (n - 1) i (by omega) hagree
  have heq : sha_256 input1 n = sha_256 input2 n := by
    rw [sha_256_eq_finalHash, sha_256_eq_finalHash, finalHash_congr input1 input2 n hget]
  refine ⟨heq, ?_⟩
  intro hin hfit
  have h1 := sha_256_eq_ref input1 n hn hin hfit
  exact ⟨_, h1, by rw [← heq]; exact h1, rfl⟩

/-- Witness of C12: the message `abc` followed by a NUL, and followed by other bytes. -/
theorem sha_256_deterministic_witness :
    1 ≤ 4 ∧ [97, 98, 99, 0].take (4 - 1) = [97, 98, 99, 255, 7].take (4 - 1) ∧
    (sha_256 [97, 98, 99, 0] 4 = sha_256 [97, 98, 99, 255, 7] 4 ∧
    (4 - 1 ≤ [97, 98, 99, 0].length → 64 * ((4 + 8 + 63) / 64) ≤ 2 ^ 31 - 1 →
      ∃ s, sha_256 [97, 98, 99, 0] 4 = some s ∧ sha_256 [97, 98, 99, 255, 7] 4 = some s ∧
        s = Ref.hexEncode (Ref.sha256 (([97, 98, 99, 0].take (4 - 1)).map (· % 256))))) :=
  ⟨by decide, by decide, sha_256_deterministic [97, 98, 99, 0] [97, 98, 99, 255, 7] 4
    (by decide) (by decide)⟩

theorem finalHash_eq_ref (input : List Nat) (n : Nat) (hn : 1 ≤ n) (hin : n - 1 ≤ input.length)
    (hfit : 64 * ((n + 8 + 63) / 64) ≤ 2 ^ 31 - 1) :
    ∃ buf, preProcess input n = some buf ∧ buf.length = 64 * noOfChunks n ∧
      finalHash input n = some ((Ref.blocks buf).foldl
        (fun H block => Ref.compress (Ref.schedule block) H) Ref.H0) ∧
      ((Ref.blocks buf).foldl
        (fun H block => Ref.compress (Ref.schedule block) H) Ref.H0).InRange := by
  have hm : ((input.take (n - 1)).map (· % 256)).length = n - 1 := by
    rw [List.length_map, List.length_take, Nat.min_eq_left hin]
  have hb : ∀ b ∈ (input.take (n - 1)).map (· % 256), b < 256 := by
    intro b hbm
    obtain ⟨a, -, rfl⟩ := List.mem_map.1 hbm
    exact Nat.mod_lt _ (by norm_num)
  have hpl : (Ref.pad ((input.take (n - 1)).map (· % 256))).length = 64 * ((n + 8 + 63) / 64) := by
    rw [pad_length, hm]
    congr 2
    omega
  obtain ⟨h1, h2⟩ := chunkLoop_eq (Ref.pad ((input.take (n - 1)).map (· % 256)))
    ((n + 8 + 63) / 64) (pad_bytes _ hb) hpl (by omega)
  refine ⟨_, preProcess_eq_pad input n hn hin hfit, ?_, ?_, h2⟩
  · rw [hpl, noOfChunks_eq n hfit]
  · unfold finalHash
    rw [preProcess_eq_pad input n hn hin hfit, noOfChunks_eq n hfit]
    simp only [Option.bind_eq_bind, Option.some_bind]
    exact h1

/-- Claim C11: for every message (an input buffer that holds the `n - 1` message bytes, `n >= 1`,
padded size within `int`), the hash state `sha_256` encodes as the digest is the left fold, over
the chunks `0, 1, ..., noOfChunks - 1` of the padded buffer in this order, of the step
`state -> compress(expand(chunk), state)` started from the fixed initial state
`(0x6a09e667, ..., 0x5be0cd19)`; `expand` (`Ref.schedule`) is applied to the 64 bytes of the
chunk alone. -/
theorem finalHash_is_fold (input : List Nat) (n : Nat) (hn : 1 ≤ n)
    (hin : n - 1 ≤ input.length) (hfit : 64 * ((n + 8 + 63) / 64) ≤ 2 ^ 31 - 1) :
    ∃ buf hs, preProcess input n = some buf ∧ buf.length = 64 * noOfChunks n ∧
      finalHash input n = some hs ∧ sha_256 input n = some (digest hs) ∧
      hs = (List.range (noOfChunks n)).foldl
        (fun state chunk => Ref.compress (Ref.schedule ((buf.drop (64 * chunk)).take 64)) state)
        ⟨0x6a09e667, 0xbb67ae85, 0x3c6ef372, 0xa54ff53a,
         0x510e527f, 0x9b05688c, 0x1f83d9ab, 0x5be0cd19⟩ ∧
      (∀ hs' : Hash, hs'.InRange → sha_256 input n = some (digest hs') → hs' = hs) := by
  obtain ⟨buf, hbuf, hlen, hfin, hr⟩ := finalHash_eq_ref input n hn hin hfit
  have hfold : (Ref.blocks buf).foldl (fun H block => Ref.compress (Ref.schedule block) H) Ref.H0
      = (List.range (noOfChunks n)).foldl
        (fun state chunk => Ref.compress (Ref.schedule ((buf.drop (64 * chunk)).take 64)) state)
        ⟨0x6a09e667, 0xbb67ae85, 0x3c6ef372, 0xa54ff53a,
         0x510e527f, 0x9b05688c, 0x1f83d9ab, 0x5be0cd19⟩ := by
    unfold Ref.blocks
    have hN : buf.length / 64 = noOfChunks n := by omega
    rw [hN, List.foldl_map, ← initialHash_eq]
    rfl
  rw [hfold] at hfin hr
  refine ⟨buf, _, hbuf, hlen, hfin, ?_, rfl, ?_⟩
  · rw [sha_256_eq_finalHash, hfin]
    rfl
  · intro hs' hr' h
    rw [sha_256_eq_finalHash, hfin] at h
    simp only [Option.map_some', Option.some.injEq] at h
    exact digest_injective _ hs' hr hr' h.symm

/-- Witness of C11 at the message `abc`. -/
theorem finalHash_is_fold_witness :
    1 ≤ 4 ∧ 4 - 1 ≤ [97, 98, 99, 0].length ∧ 64 * ((4 + 8 + 63) / 64) ≤ 2 ^ 31 - 1 ∧
    ∃ buf hs, preProcess [97, 98, 99, 0] 4 = some buf ∧ buf.length = 64 * noOfChunks 4 ∧
      finalHash [97, 98, 99, 0] 4 = some hs ∧ sha_256 [97, 98, 99, 0] 4 = some (digest hs) ∧
      hs = (List.range (noOfChunks 4)).foldl
        (fun state chunk => Ref.compress (Ref.schedule ((buf.drop (64 * chunk)).take 64)) state)
        ⟨0x6a09e667, 0xbb67ae85, 0x3c6ef372, 0xa54ff53a,
         0x510e527f, 0x9b05688c, 0x1f83d9ab, 0x5be0cd19⟩ ∧
      (∀ hs' : Hash, hs'.InRange → sha_256 [97, 98, 99, 0] 4 = some (digest hs') → hs' = hs) :=
  ⟨by decide, by decide, by decide,
    finalHash_is_fold [97, 98, 99, 0] 4 (by decide) (by decide) (by decide)⟩

/-! ## The padding against the standard -/

theorem preProcess_separator_bitLength (input : List Nat) (n : Nat) :
    preProcess input n = (do
      let pre_processed ← (upTo 0 (separatorIndex n) 1).foldlM
        (fun pre i => do
          let ch ← input[i]?
          writeAt pre i (ch % 256))
        (List.replicate (toSizeT (noOfBytes n)) 0)
      let pre_processed ← writeAt pre_processed (separatorIndex n) 0x80
      (downFrom (noOfBytes n - 1) 8).foldlM
        (fun pre i =>
          if 0 ≤ i then
            writeAt pre i.toNat
              ((intToByteArray (encodedBitLength n) (List.replicate 8 0)).getD
                (noOfBytes n - 1 - i).toNat 0)
          else none)
        pre_processed) := rfl

theorem padding_values (m : Nat) (hfit : 64 * ((m + 9 + 63) / 64) ≤ 2 ^ 31 - 1) :
    noOfChunks (m + 1) = (m + 9 + 63) / 64 ∧ separatorIndex (m + 1) = m ∧
    encodedBitLength (m + 1) = 8 * m := by
  refine ⟨?_, ?_, ?_⟩
  · rw [noOfChunks_eq (m + 1) (by omega)]
  · unfold separatorIndex
    omega
  · unfold encodedBitLength
    omega

/-- Claim C17, as amended: the padding computation of `sha_256` agrees with the standard SHA-256
padding. For every message `msg` of `m` bytes whose padded size fits an `int` (the lengths 55,
56, 63, 64, 65, 119 and 120 among them), called as `main` calls it (`n = m + 1`), the chunk count
is `ceil((m + 9) / 64)`, the separator goes to index `m`, the encoded bit length is `8 * m`, and
the padded buffer is the padded message of the standard (`Ref.pad`). -/
theorem padding_matches_standard (msg : List Nat) (t : Nat) (hb : ∀ b ∈ msg, b < 256)
    (hfit : 64 * ((msg.length + 9 + 63) / 64) ≤ 2 ^ 31 - 1) :
    noOfChunks (msg.length + 1) = (msg.length + 9 + 63) / 64 ∧
    separatorIndex (msg.length + 1) = msg.length ∧
    encodedBitLength (msg.length + 1) = 8 * msg.length ∧
    ¬ PaddingDiffers msg.length ∧
    preProcess (msg ++ [t]) (msg.length + 1) = some (Ref.pad msg) := by
  obtain ⟨h1, h2, h3⟩ := padding_values msg.length hfit
  refine ⟨h1, h2, h3, ?_, ?_⟩
  · unfold PaddingDiffers
    rw [h1, h2, h3]
    simp
  · have h := preProcess_eq_pad (msg ++ [t]) (msg.length + 1) (by omega) (by simp) (by omega)
    have hm : ((msg ++ [t]).take (msg.length + 1 - 1)).map (· % 256) = msg := by
      rw [Nat.add_sub_cancel, List.take_left']
      · apply List.ext_getElem?
        intro i
        rw [List.getElem?_map]
        cases hi : msg[i]? with
        | none => rfl
        | some b =>
          simp only [Option.map_some', Option.some.injEq]
          exact Nat.mod_eq_of_lt (hb b (List.getElem?_mem hi))
      · rfl
    rw [hm] at h
    exact h

/-- Witness of the amended C17 at a message of 55 bytes. -/
theorem padding_matches_standard_witness :
    (∀ b ∈ List.replicate 55 97, b < 256) ∧
    64 * (((List.replicate 55 97).length + 9 + 63) / 64) ≤ 2 ^ 31 - 1 ∧
    (noOfChunks ((List.replicate 55 97).length + 1) = ((List.replicate 55 97).length + 9 + 63) / 64 ∧
    separatorIndex ((List.replicate 55 97).length + 1) = (List.replicate 55 97).length ∧
    encodedBitLength ((List.replicate 55 97).length + 1) = 8 * (List.replicate 55 97).length ∧
    ¬ PaddingDiffers (List.replicate 55 97).length ∧
    preProcess (List.replicate 55 97 ++ [0]) ((List.replicate 55 97).length + 1)
      = some (Ref.pad (List.replicate 55 97))) :=
  ⟨by decide, by decide,
    padding_matches_standard (List.replicate 55 97) 0 (by decide) (by decide)⟩

/-- Counterexample to C17 as stated: at none of the lengths 55, 56, 63, 64, 65, 119, 120, and at
no length whose padded size fits an `int`, does the chunk count, the separator position or the
encoded bit length differ from the standard's. -/
theorem padding_never_differs :
    (∀ m ∈ [55, 56, 63, 64, 65, 119, 120], ¬ PaddingDiffers m) ∧
    ¬ ∃ m, 64 * ((m + 9 + 63) / 64) ≤ 2 ^ 31 - 1 ∧ PaddingDiffers m := by
  refine ⟨by decide, ?_⟩
  rintro ⟨m, hfit, hd⟩
  obtain ⟨h1, h2, h3⟩ := padding_values m hfit
  unfold PaddingDiffers at hd
  rw [h1, h2, h3] at hd
  simp at hd

theorem copyLoop_overrun (input : List Nat) : ∀ (c s : Nat) (pre : List Nat),
    s ≤ pre.length → pre.length < s + c →
    (List.range' s c).foldlM
        (fun pre i => do
          let ch ← input[i]?
          writeAt pre i (ch % 256)) pre = none := by
  intro c
  induction c with
  | zero => intro s pre h1 h2; omega
  | succ c ih =>
    intro s pre h1 h2
    rw [List.range'_succ, List.foldlM_cons]
    cases hr : input[s]? with
    | none => rfl
    | some ch =>
      simp only [Option.bind_eq_bind, Option.some_bind, writeAt]
      by_cases hs : s < pre.length
      · rw [if_pos hs]
        simp only [Option.some_bind]
        exact ih (s + 1) _ (by rw [List.length_set]; omega) (by rw [List.length_set]; omega)
      · rw [if_neg hs]
        rfl

theorem preProcess_zero (input : List Nat) : preProcess input 0 = none := by
  have hb : toSizeT (noOfBytes 0) = 64 := by decide!
  have hc : (0 + 2 ^ 64 - 1) % 2 ^ 64 = 2 ^ 64 - 1 := by norm_num
  unfold preProcess
  simp only [hb, hc, upTo_one, Nat.sub_zero]
  rw [copyLoop_overrun input _ 0 _ (by simp) (by simp)]
  rfl

/-! ## Indices of the padded buffer -/

theorem downFrom_eq (hi : Int) (count : Nat) :
    downFrom hi count = (List.range' 0 count).map (fun k : Nat => hi - (k : Int)) := by
  unfold downFrom
  generalize List.range' 0 count = l
  induction l with
  | nil => rfl
  | cons a l ih =>
    simp only [List.map_cons]
    rw [← ih]
    rfl

/-- Claim C18: with the padded buffer an array of exactly `noOfBytes = 64 * noOfChunks` bytes and
checked indexing, for every `n >= 1` with `noOfBytes <= 2^31 - 1` (and an input buffer that holds
the `n - 1` message bytes) every index the padding stage writes (the copy indices `0..n-2`, the
separator index `n - 1`, the length indices `noOfBytes-8..noOfBytes-1`) and every index the chunk
loop reads (`64*chunk + 0..63` for `chunk < noOfChunks`) is inside the buffer, and no error branch
is reached: the padding stage, every `convertChunkTo32BitWordArray` and the chunk loop return a
result. For `n = 0` the separator index `n - 1` wraps to `2^64 - 1`, outside the 64-byte buffer,
and the padding stage fails whatever the input. -/
theorem padding_indices_in_bounds (input : List Nat) (n : Nat) (hn : 1 ≤ n)
    (hin : n - 1 ≤ input.length) (hfit : 64 * ((n + 8 + 63) / 64) ≤ 2 ^ 31 - 1) :
    toSizeT (noOfBytes n) = 64 * noOfChunks n ∧
    (∀ i, i < separatorIndex n → i < toSizeT (noOfBytes n)) ∧
    separatorIndex n = n - 1 ∧ separatorIndex n < toSizeT (noOfBytes n) ∧
    (∀ i ∈ downFrom (noOfBytes n - 1) 8, 0 ≤ i ∧ i.toNat < toSizeT (noOfBytes n) ∧
      toSizeT (noOfBytes n) - 8 ≤ i.toNat) ∧
    (∀ chunk j, chunk < noOfChunks n → j < 64 → 64 * chunk + j < toSizeT (noOfBytes n)) ∧
    (∃ buf, preProcess input n = some buf ∧ buf.length = toSizeT (noOfBytes n) ∧
      ∀ chunk, chunk < noOfChunks n →
        ∃ words, convertChunkTo32BitWordArray buf 64 chunk (List.replicate 64 0) = some words) ∧
    (∃ hs, finalHash input n = some hs) ∧
    (separatorIndex 0 = 2 ^ 64 - 1 ∧ toSizeT (noOfBytes 0) = 64 ∧
      ∀ input', preProcess input' 0 = none) := by
  have hc := noOfChunks_eq n hfit
  have hbytes := noOfBytes_eq n hfit
  have hs : toSizeT (noOfBytes n) = 64 * ((n + 8 + 63) / 64) := by
    rw [hbytes, toSizeT_natCast _ (by omega)]
  have hsep : separatorIndex n = n - 1 := by
    unfold separatorIndex
    omega
  obtain ⟨buf, hbuf, hlen, hfin, -⟩ := finalHash_eq_ref input n hn hin hfit
  have hm : ((input.take (n - 1)).map (· % 256)).length = n - 1 := by
    rw [List.length_map, List.length_take, Nat.min_eq_left hin]
  have hb : ∀ b ∈ (input.take (n - 1)).map (· % 256), b < 256 := by
    intro b hbm
    obtain ⟨a, -, rfl⟩ := List.mem_map.1 hbm
    exact Nat.mod_lt _ (by norm_num)
  have hbuf' := preProcess_eq_pad input n hn hin hfit
  rw [hbuf] at hbuf'
  have hbufeq : buf = Ref.pad ((input.take (n - 1)).map (· % 256)) := Option.some.inj hbuf'
  rw [hs, hc, hsep]
  refine ⟨rfl, ?_, rfl, by omega, ?_, ?_, ?_, ⟨_, hfin⟩, by decide, by decide!, preProcess_zero⟩
  · intro i hi
    omega
  · intro i hi
    rw [downFrom_eq] at hi
    obtain ⟨k, hk, rfl⟩ := List.mem_map.1 hi
    have hk8 : k < 8 := by
      have := (List.mem_range'_1.1 hk).2
      omega
    rw [hbytes]
    omega
  · intro chunk j h1 h2
    omega
  · refine ⟨buf, hbuf, by rw [hlen, hc], ?_⟩
    intro chunk hchunk
    rw [hc] at hlen
    obtain ⟨r, hr, -, -⟩ := convertChunk_spec buf chunk (List.replicate 64 0)
      (by rw [hbufeq]; exact pad_bytes _ hb) (by omega) (by omega) (by simp)
    exact ⟨r, hr⟩

/-- Witness of C18 at the empty message (`n = 1`). -/
theorem padding_indices_in_bounds_witness :
    1 ≤ 1 ∧ 1 - 1 ≤ [0].length ∧ 64 * ((1 + 8 + 63) / 64) ≤ 2 ^ 31 - 1 ∧
    (toSizeT (noOfBytes 1) = 64 * noOfChunks 1 ∧
    (∀ i, i < separatorIndex 1 → i < toSizeT (noOfBytes 1)) ∧
    separatorIndex 1 = 1 - 1 ∧ separatorIndex 1 < toSizeT (noOfBytes 1) ∧
    (∀ i ∈ downFrom (noOfBytes 1 - 1) 8, 0 ≤ i ∧ i.toNat < toSizeT (noOfBytes 1) ∧
      toSizeT (noOfBytes 1) - 8 ≤ i.toNat) ∧
    (∀ chunk j, chunk < noOfChunks 1 → j < 64 → 64 * chunk + j < toSizeT (noOfBytes 1)) ∧
    (∃ buf, preProcess [0] 1 = some buf ∧ buf.length = toSizeT (noOfBytes 1) ∧
      ∀ chunk, chunk < noOfChunks 1 →
        ∃ words, convertChunkTo32BitWordArray buf 64 chunk (List.replicate 64 0) = some words) ∧
    (∃ hs, finalHash [0] 1 = some hs) ∧
    (separatorIndex 0 = 2 ^ 64 - 1 ∧ toSizeT (noOfBytes 0) = 64 ∧
      ∀ input', preProcess input' 0 = none)) :=
  ⟨by decide, by decide, by decide,
    padding_indices_in_bounds [0] 1 (by decide) (by decide) (by decide)⟩

/-! ## Character buffers -/

theorem set_append_cons (pre rest : List Nat) (o b : Nat) :
    (pre ++ o :: rest).set pre.length b = pre ++ b :: rest := by
  induction pre with
  | nil => rfl
  | cons a pre ih => simp [List.set, ih]

theorem writeBytes_append : ∀ (bytes old pre post : List Nat), old.length = bytes.length →
    writeBytes (pre ++ old ++ post) pre.length bytes = some (pre ++ bytes ++ post) := by
  intro bytes
  induction bytes with
  | nil =>
    intro old pre post h
    have : old = [] := List.length_eq_zero.1 h
    subst this
    rfl
  | cons b bs ih =>
    intro old pre post h
    match old, h with
    | o :: os, h =>
      simp only [List.length_cons, Nat.add_right_cancel_iff] at h
      unfold writeBytes writeAt
      rw [if_pos (by simp)]
      simp only [Option.some_bind]
      have e1 : (pre ++ o :: os ++ post).set pre.length b = (pre ++ [b]) ++ os ++ post := by
        rw [List.append_assoc, List.cons_append, set_append_cons]
        simp
      have e2 : pre.length + 1 = (pre ++ [b]).length := by simp
      rw [e1, e2, ih os (pre ++ [b]) post h]
      simp

theorem writeBytes_overrun : ∀ (bytes buf : List Nat) (start : Nat),
    start ≤ buf.length → buf.length < start + bytes.length → writeBytes buf start bytes = none := by
  intro bytes
  induction bytes with
  | nil => intro buf start h1 h2; simp at h2; omega
  | cons b bs ih =>
    intro buf start h1 h2
    simp only [List.length_cons] at h2
    unfold writeBytes writeAt
    by_cases hs : start < buf.length
    · rw [if_pos hs]
      simp only [Option.some_bind]
      exact ih _ _ (by rw [List.length_set]; omega) (by rw [List.length_set]; omega)
    · rw [if_neg hs]
      rfl

theorem strlen_spec (text tail : List Nat) (h : 0 ∉ text) :
    strlen (text ++ 0 :: tail) = some text.length := by
  have hi : (text ++ 0 :: tail).indexOf 0 = text.length := by
    rw [List.indexOf_append_of_not_mem h, List.indexOf_cons_self, Nat.add_zero]
  unfold strlen
  rw [hi, if_pos (by simp)]

theorem strcatBuf_spec (text tail s rest : List Nat) (ht : 0 ∉ text) (hs : 0 ∉ s) :
    strcatBuf (text ++ 0 :: tail) (s ++ 0 :: rest) =
      if s.length ≤ tail.length then some ((text ++ s) ++ 0 :: tail.drop s.length) else none := by
  unfold strcatBuf
  rw [strlen_spec text tail ht, strlen_spec s rest hs]
  simp only [Option.bind_eq_bind, Option.some_bind]
  have htake : (s ++ 0 :: rest).take (s.length + 1) = s ++ [0] := by
    rw [List.take_append_eq_append_take]
    simp
  rw [htake]
  by_cases h : s.length ≤ tail.length
  · rw [if_pos h]
    have hsplit : text ++ 0 :: tail = text ++ (0 :: tail.take s.length) ++ tail.drop s.length := by
      simp
    rw [hsplit, writeBytes_append (s ++ [0]) (0 :: tail.take s.length) text (tail.drop s.length)
      (by simp; omega)]
    simp
  · rw [if_neg h]
    exact writeBytes_overrun _ _ _ (by simp) (by simp; omega)

theorem toNat_ne_zero_of_hex (c : Char) (hc : c ∈ lowerHexChars) : c.toNat ≠ 0 := by
  revert c
  decide

theorem bytesOf_toHex (w : Nat) (hw : w < 2 ^ 32) :
    (bytesOf (toHex w)).length = 8 ∧ 0 ∉ bytesOf (toHex w) := by
  unfold bytesOf
  have hd : (toHex w).toList = hexN 8 w := toHex_data w hw
  rw [hd]
  constructor
  · rw [List.length_map, hexN_length]
  · intro h0
    obtain ⟨c, hc, hz⟩ := List.mem_map.1 h0
    exact toNat_ne_zero_of_hex c (hexN_mem 8 w c hc) hz

theorem toHexBuf_spec (w : Nat) (hw : w < 2 ^ 32) :
    toHexBuf w = some (bytesOf (toHex w) ++ [0]) := by
  obtain ⟨hl, -⟩ := bytesOf_toHex w hw
  unfold toHexBuf
  have h := writeBytes_append (bytesOf (toHex w) ++ [0]) (List.replicate 9 0) [] []
    (by simp [hl])
  simpa using h

theorem strcat_toHex (text : List Nat) (k w : Nat) (hw : w < 2 ^ 32) (ht : 0 ∉ text) :
    (toHexBuf w).bind (strcatBuf (text ++ 0 :: List.replicate k 0)) =
      if 8 ≤ k then some ((text ++ bytesOf (toHex w)) ++ 0 :: List.replicate (k - 8) 0)
      else none := by
  obtain ⟨hl, h0⟩ := bytesOf_toHex w hw
  rw [toHexBuf_spec w hw]
  simp only [Option.some_bind]
  rw [strcatBuf_spec text _ (bytesOf (toHex w)) [] ht h0, hl]
  simp

theorem not_mem_append_toHex (text : List Nat) (w : Nat) (hw : w < 2 ^ 32) (ht : 0 ∉ text) :
    0 ∉ text ++ bytesOf (toHex w) := by
  intro h
  rcases List.mem_append.1 h with h | h
  · exact ht h
  · exact (bytesOf_toHex w hw).2 h

theorem bytesOf_digest (hs : Hash) :
    bytesOf (digest hs) = bytesOf (toHex hs.h0) ++ bytesOf (toHex hs.h1) ++ bytesOf (toHex hs.h2)
      ++ bytesOf (toHex hs.h3) ++ bytesOf (toHex hs.h4) ++ bytesOf (toHex hs.h5)
      ++ bytesOf (toHex hs.h6) ++ bytesOf (toHex hs.h7) := by
  simp [bytesOf, digest, strcat]

theorem digestInto_spec (hs : Hash) (hr : hs.InRange) (k : Nat) :
    digestInto (List.replicate (k + 1) 0) hs =
      if 64 ≤ k then some (bytesOf (digest hs) ++ 0 :: List.replicate (k - 64) 0) else none := by
  obtain ⟨r0, r1, r2, r3, r4, r5, r6, r7⟩ := hr
  have n0 : (0 : Nat) ∉ ([] : List Nat) := by simp
  have n1 := not_mem_append_toHex _ _ r0 n0
  have n2 := not_mem_append_toHex _ _ r1 n1
  have n3 := not_mem_append_toHex _ _ r2 n2
  have n4 := not_mem_append_toHex _ _ r3 n3
  have n5 := not_mem_append_toHex _ _ r4 n4
  have n6 := not_mem_append_toHex _ _ r5 n5
  have n7 := not_mem_append_toHex _ _ r6 n6
  have s0 := strcat_toHex _ k _ r0 n0
  have s1 := strcat_toHex _ (k - 8) _ r1 n1
  have s2 := strcat_toHex _ (k - 8 - 8) _ r2 n2
  have s3 := strcat_toHex _ (k - 8 - 8 - 8) _ r3 n3
  have s4 := strcat_toHex _ (k - 8 - 8 - 8 - 8) _ r4 n4
  have s5 := strcat_toHex _ (k - 8 - 8 - 8 - 8 - 8) _ r5 n5
  have s6 := strcat_toHex _ (k - 8 - 8 - 8 - 8 - 8 - 8) _ r6 n6
  have s7 := strcat_toHex _ (k - 8 - 8 - 8 - 8 - 8 - 8 - 8) _ r7 n7
  have hrep : List.replicate (k + 1) 0 = [] ++ 0 :: List.replicate k 0 := rfl
  unfold digestInto
  rw [hrep, bytesOf_digest]
  by_cases h : 64 ≤ k
  · rw [if_pos (by omega)] at s0 s1 s2 s3 s4 s5 s6 s7
    rw [if_pos h]
    simp only [Option.bind_eq_bind, s0, Option.some_bind, s1, s2, s3, s4, s5, s6, s7]
    have e : k - 8 - 8 - 8 - 8 - 8 - 8 - 8 - 8 = k - 64 := by omega
    rw [e]
    simp
  · rw [if_neg h]
    by_cases c0 : 8 ≤ k
    swap
    · rw [if_neg c0] at s0
      simp only [Option.bind_eq_bind, s0, Option.none_bind]
    rw [if_pos c0] at s0
    simp only [Option.bind_eq_bind, s0, Option.some_bind]
    by_cases c1 : 8 ≤ k - 8
    swap
    · rw [if_neg c1] at s1
      simp only [s1, Option.none_bind]
    rw [if_pos c1] at s1
    simp only [s1, Option.some_bind]
    by_cases c2 : 8 ≤ k - 8 - 8
    swap
    · rw [if_neg c2] at s2
      simp only [s2, Option.none_bind]
    rw [if_pos c2] at s2
    simp only [s2, Option.some_bind]
    by_cases c3 : 8 ≤ k - 8 - 8 - 8
    swap
    · rw [if_neg c3] at s3
      simp only [s3, Option.none_bind]
    rw [if_pos c3] at s3
    simp only [s3, Option.some_bind]
    by_cases c4 : 8 ≤ k - 8 - 8 - 8 - 8
    swap
    · rw [if_neg c4] at s4
      simp only [s4, Option.none_bind]
    rw [if_pos c4] at s4
    simp only [s4, Option.some_bind]
    by_cases c5 : 8 ≤ k - 8 - 8 - 8 - 8 - 8
    swap
    · rw [if_neg c5] at s5
      simp only [s5, Option.none_bind]
    rw [if_pos c5] at s5
    simp only [s5, Option.some_bind]
    by_cases c6 : 8 ≤ k - 8 - 8 - 8 - 8 - 8 - 8
    swap
    · rw [if_neg c6] at s6
      simp only [s6, Option.none_bind]
    rw [if_pos c6] at s6
    simp only [s6, Option.some_bind]
    rw [if_neg (by omega)] at s7
    exact s7

theorem finalHash_inRange (input : List Nat) (n : Nat) (hs : Hash)
    (h : finalHash input n = some hs) : hs.InRange := by
  unfold finalHash at h
  cases hp : preProcess input n with
  | none => rw [hp] at h; simp at h
  | some pre =>
    rw [hp] at h
    simp only [Option.bind_eq_bind, Option.some_bind] at h
    exact chunkFold_inRange pre _ _ _ initialHash_inRange h

theorem sha_256_bytes_none (input : List Nat) (n : Nat) : sha_256_bytes input n = none := by
  unfold sha_256_bytes
  cases hf : finalHash input n with
  | none => rfl
  | some hs =>
    simp only [Option.bind_eq_bind, Option.some_bind]
    unfold digestBuf
    rw [digestInto_spec hs (finalHash_inRange input n hs hf) 63, if_neg (by omega)]

/-- Claim C19, on the code: with the digest buffer an array of exactly 64 bytes and checked
indexing, the eight `strcat(digest, toHex(h_i))` do not stay inside it. For every state of eight
32-bit words the assembly in the 64-byte buffer fails, and so does `sha_256` with that buffer for
every input; in a buffer of 65 bytes it succeeds and leaves the 64 digits followed by the NUL, so
the byte written outside the 64 is the NUL of the eighth `strcat`, at index 64. `toHex` stays
inside its own 9-byte buffer: 8 digits and the NUL. -/
theorem digest_buffer_overrun (hs : Hash) (hr : hs.InRange) :
    digestBuf hs = none ∧
    digestInto (List.replicate 65 0) hs = some (bytesOf (digest hs) ++ [0]) ∧
    (bytesOf (digest hs)).length = 64 ∧
    (∀ input n, sha_256_bytes input n = none) ∧
    (∀ w, w < 2 ^ 32 → toHexBuf w = some (bytesOf (toHex w) ++ [0]) ∧
      (bytesOf (toHex w) ++ [0]).length = 9) := by
  refine ⟨?_, ?_, ?_, sha_256_bytes_none, ?_⟩
  · unfold digestBuf
    rw [digestInto_spec hs hr 63, if_neg (by omega)]
  · rw [digestInto_spec hs hr 64, if_pos (by omega)]
    rfl
  · unfold bytesOf
    rw [List.length_map]
    exact (digest_shape hs hr).1
  · intro w hw
    refine ⟨toHexBuf_spec w hw, ?_⟩
    rw [List.length_append, (bytesOf_toHex w hw).1]
    rfl

/-- Witness of C19 at the initial hash values. -/
theorem digest_buffer_overrun_witness :
    initialHash.InRange ∧
    (digestBuf initialHash = none ∧
    digestInto (List.replicate 65 0) initialHash = some (bytesOf (digest initialHash) ++ [0]) ∧
    (bytesOf (digest initialHash)).length = 64 ∧
    (∀ input n, sha_256_bytes input n = none) ∧
    (∀ w, w < 2 ^ 32 → toHexBuf w = some (bytesOf (toHex w) ++ [0]) ∧
      (bytesOf (toHex w) ++ [0]).length = 9)) :=
  ⟨initialHash_inRange, digest_buffer_overrun initialHash initialHash_inRange⟩

/-! ## `main` -/

theorem joinArgs_nil : joinArgs [] = [] := rfl

theorem joinArgs_singleton (a : List Nat) : joinArgs [a] = a := by
  simp [joinArgs, List.intercalate, List.intersperse]

theorem joinArgs_cons_cons (a b : List Nat) (rest : List (List Nat)) :
    joinArgs (a :: b :: rest) = a ++ [32] ++ joinArgs (b :: rest) := by
  simp [joinArgs, List.intercalate, List.intersperse, bytesOf]

theorem joinArgs_length_cons_cons (a b : List Nat) (rest : List (List Nat)) :
    (joinArgs (a :: b :: rest)).length = a.length + 1 + (joinArgs (b :: rest)).length := by
  rw [joinArgs_cons_cons]
  simp only [List.length_append, List.length_cons, List.length_nil]

theorem drop_eq_getD_cons (argv : List (List Nat)) (s : Nat) (hs : s < argv.length) :
    argv.drop s = argv.getD s [] :: argv.drop (s + 1) := by
  rw [List.getD_eq_getElem?_getD, List.getElem?_eq_getElem hs]
  simp

theorem foldlM_cons_of_eq {σ : Type} (f : σ → Nat → Option σ) (b b' : σ) (a : Nat)
    (l : List Nat) (h : f b a = some b') : (a :: l).foldlM f b = l.foldlM f b' := by
  rw [List.foldlM_cons, h]
  rfl

theorem strsizeStep_spec (argv : List (List Nat)) (acc s : Nat) (hz : 0 ∉ argv.getD s [])
    (hsize : acc + (argv.getD s []).length + 1 < 2 ^ 64) :
    strsizeStep argv acc s = some
      (if argv.length > s + 1 then acc + (argv.getD s []).length + 1
       else acc + (argv.getD s []).length) := by
  unfold strsizeStep
  rw [strlen_spec _ [] hz]
  simp only [Option.bind_eq_bind, Option.some_bind, Option.pure_def]
  rw [Nat.mod_eq_of_lt (by omega), Nat.mod_eq_of_lt (by omega)]

theorem strsizeLoop_spec (argv : List (List Nat)) : ∀ (c s acc : Nat),
    s + c = argv.length → (∀ a ∈ argv.drop s, 0 ∉ a) →
    acc + (joinArgs (argv.drop s)).length + 1 < 2 ^ 64 →
    (List.range' s c).foldlM (strsizeStep argv) acc
      = some (acc + (joinArgs (argv.drop s)).length) := by
  intro c
  induction c with
  | zero =>
    intro s acc hsc _ _
    have : argv.drop s = [] := List.drop_of_length_le (by omega)
    rw [this]
    rfl
  | succ c ih =>
    intro s acc hsc hz hsize
    have hd := drop_eq_getD_cons argv s (by omega)
    rw [hd] at hz hsize
    have hz0 : 0 ∉ argv.getD s [] := hz _ (List.mem_cons_self _ _)
    rw [List.range'_succ, hd]
    by_cases hc : c = 0
    · subst hc
      have hnil : argv.drop (s + 1) = [] := List.drop_of_length_le (by omega)
      rw [hnil, joinArgs_singleton] at hsize ⊢
      have hstep := strsizeStep_spec argv acc s hz0 (by omega)
      rw [if_neg (by omega)] at hstep
      rw [foldlM_cons_of_eq _ _ _ _ _ hstep]
      rfl
    · have hd' := drop_eq_getD_cons argv (s + 1) (by omega)
      rw [hd', joinArgs_length_cons_cons] at hsize
      have hstep := strsizeStep_spec argv acc s hz0 (by omega)
      rw [if_pos (by omega)] at hstep
      rw [foldlM_cons_of_eq _ _ _ _ _ hstep,
        ih (s + 1) _ (by omega) (fun a ha => hz a (List.mem_cons_of_mem _ ha))
          (by rw [hd']; omega),
        hd', joinArgs_length_cons_cons]
      congr 1
      omega

theorem inputStep_spec (argv : List (List Nat)) (s : Nat) (text tail : List Nat)
    (ht : 0 ∉ text) (hz : 0 ∉ argv.getD s [])
    (hlen : (argv.getD s []).length + 1 ≤ tail.length) :
    inputStep argv (text ++ 0 :: tail) s = some
      (if argv.length > s + 1 then
        (text ++ argv.getD s [] ++ [32]) ++ 0 :: tail.drop ((argv.getD s []).length + 1)
       else (text ++ argv.getD s []) ++ 0 :: tail.drop (argv.getD s []).length) := by
  have ht1 : 0 ∉ text ++ argv.getD s [] := by
    intro h
    rcases List.mem_append.1 h with h | h
    · exact ht h
    · exact hz h
  have hsp : bytesOf " " ++ [0] = [32] ++ 0 :: [] := by decide
  unfold inputStep
  rw [strcatBuf_spec text tail _ [] ht hz, if_pos (by omega)]
  simp only [Option.bind_eq_bind, Option.some_bind, Option.pure_def]
  by_cases h : argv.length > s + 1
  · rw [if_pos h, if_pos h, hsp, strcatBuf_spec _ _ [32] [] ht1 (by decide), if_pos (by
      rw [List.length_drop]; simp only [List.length_cons, List.length_nil]; omega)]
    rw [List.drop_drop]
    simp only [List.length_cons, List.length_nil]
  · rw [if_neg h, if_neg h]

theorem inputLoop_spec (argv : List (List Nat)) : ∀ (c s : Nat) (text tail : List Nat),
    s + c = argv.length → 0 ∉ text → (∀ a ∈ argv.drop s, 0 ∉ a) →
    (joinArgs (argv.drop s)).length ≤ tail.length →
    (List.range' s c).foldlM (inputStep argv) (text ++ 0 :: tail)
      = some ((text ++ joinArgs (argv.drop s)) ++
          0 :: tail.drop (joinArgs (argv.drop s)).length) := by
  intro c
  induction c with
  | zero =>
    intro s text tail hsc _ _ _
    have : argv.drop s = [] := List.drop_of_length_le (by omega)
    rw [this]
    simp [joinArgs_nil]
  | succ c ih =>
    intro s text tail hsc ht hz hlen
    have hd := drop_eq_getD_cons argv s (by omega)
    rw [hd] at hz hlen
    have hz0 : 0 ∉ argv.getD s [] := hz _ (List.mem_cons_self _ _)
    rw [List.range'_succ, hd]
    by_cases hc : c = 0
    · subst hc
      have hnil : argv.drop (s + 1) = [] := List.drop_of_length_le (by omega)
      rw [hnil, joinArgs_singleton] at hlen ⊢
      unfold inputStep
      rw [List.foldlM_cons, strcatBuf_spec text tail _ [] ht hz0, if_pos hlen]
      simp only [Option.bind_eq_bind, Option.some_bind]
      rw [if_neg (by omega)]
      rfl
    · have hd' := drop_eq_getD_cons argv (s + 1) (by omega)
      rw [hd', joinArgs_length_cons_cons] at hlen
      have hstep := inputStep_spec argv s text tail ht hz0 (by omega)
      rw [if_pos (by omega)] at hstep
      have ht2 : 0 ∉ text ++ argv.getD s [] ++ [32] := by
        intro h
        rcases List.mem_append.1 h with h | h
        · rcases List.mem_append.1 h with h | h
          · exact ht h
          · exact hz0 h
        · simp at h
      rw [foldlM_cons_of_eq _ _ _ _ _ hstep,
        ih (s + 1) _ _ (by omega) ht2 (fun a ha => hz a (List.mem_cons_of_mem _ ha))
          (by rw [hd', List.length_drop]; omega),
        hd', joinArgs_cons_cons, List.drop_drop]
      simp only [List.append_assoc, List.length_append, List.length_cons, List.length_nil]
      have e : (argv.getD s []).length + 1
            + (joinArgs (argv.getD (s + 1) [] :: List.drop (s + 1 + 1) argv)).length
          = (argv.getD s []).length
            + (0 + 1 + (joinArgs (argv.getD (s + 1) [] :: List.drop (s + 1 + 1) argv)).length) := by
        omega
      rw [e]

theorem joinArgs_zero_free : ∀ (args : List (List Nat)), (∀ a ∈ args, 0 ∉ a) →
    0 ∉ joinArgs args := by
  intro args
  induction args with
  | nil => intro _; simp [joinArgs_nil]
  | cons a rest ih =>
    intro hz
    cases rest with
    | nil =>
      rw [joinArgs_singleton]
      exact hz a (List.mem_cons_self _ _)
    | cons b rest =>
      rw [joinArgs_cons_cons]
      intro h
      rcases List.mem_append.1 h with h | h
      · rcases List.mem_append.1 h with h | h
        · exact hz a (List.mem_cons_self _ _) h
        · simp at h
      · exact ih (fun a' ha' => hz a' (List.mem_cons_of_mem _ ha')) h

theorem malloc_succ (junk : List Nat) (size : Nat) :
    ∃ tl, writeAt (malloc junk (size + 1)) 0 0 = some (0 :: tl) ∧ tl.length = size := by
  refine ⟨(List.range size).map (fun i => junk.getD (i + 1) 0), ?_, by simp⟩
  unfold writeAt malloc
  rw [if_pos (by simp), List.range_succ_eq_map]
  simp [List.set, Function.comp_def]

theorem mainStrsize_spec (prog : List Nat) (args : List (List Nat)) (hz : ∀ a ∈ args, 0 ∉ a)
    (hsize : (joinArgs args).length + 1 < 2 ^ 64) :
    mainStrsize (prog :: args) = some ((joinArgs args).length + 1) := by
  unfold mainStrsize
  have h := strsizeLoop_spec (prog :: args) args.length 1 0 (by simp; omega)
    (by simpa using hz) (by simpa using hsize)
  have hu : upTo 1 (prog :: args).length 1 = List.range' 1 args.length := by
    rw [upTo_one]
    simp
  rw [hu, h]
  simp only [Option.bind_eq_bind, Option.some_bind, Option.pure_def, List.drop_one, List.tail_cons,
    Nat.zero_add]
  rw [Nat.mod_eq_of_lt hsize]

theorem mainInput_spec (prog : List Nat) (args : List (List Nat)) (junk : List Nat)
    (hz : ∀ a ∈ args, 0 ∉ a) (hsize : (joinArgs args).length + 1 < 2 ^ 64) :
    mainInput (prog :: args) junk = some (joinArgs args ++ [0]) := by
  obtain ⟨tl, htl, hlen⟩ := malloc_succ junk (joinArgs args).length
  unfold mainInput
  rw [mainStrsize_spec prog args hz hsize]
  simp only [Option.bind_eq_bind, Option.some_bind]
  rw [htl]
  simp only [Option.some_bind]
  have h := inputLoop_spec (prog :: args) args.length 1 [] tl (by simp; omega) (by simp)
    (by simpa using hz) (by simp [hlen])
  have hu : upTo 1 (prog :: args).length 1 = List.range' 1 args.length := by
    rw [upTo_one]
    simp
  rw [hu]
  simp only [List.nil_append, List.drop_one, List.tail_cons] at h
  rw [h, List.drop_of_length_le (by omega)]

theorem main_spec (prog : List Nat) (args : List (List Nat)) (junk : List Nat)
    (hz : ∀ a ∈ args, 0 ∉ a) (hsize : (joinArgs args).length + 1 < 2 ^ 64) :
    main (prog :: args) junk =
      (sha_256 (joinArgs args ++ [0]) ((joinArgs args).length + 1)).map
        (fun output =>
          ([Event.printf (bytesOf "\nInput: " ++ joinArgs args ++ bytesOf "\n"),
            Event.sha_256 (joinArgs args ++ [0]) ((joinArgs args).length + 1),
            Event.printf (bytesOf "\nSHA-265 Digest : " ++ bytesOf output ++ bytesOf "\n")],
           0)) := by
  have hlen : ¬ (prog :: args).length < 1 := by
    rw [List.length_cons]
    omega
  have hstr : strlen (joinArgs args ++ [0]) = some (joinArgs args).length :=
    strlen_spec (joinArgs args) [] (joinArgs_zero_free args hz)
  have htake : (joinArgs args ++ [0]).take (joinArgs args).length = joinArgs args :=
    List.take_left' rfl
  have hmod : ((joinArgs args).length + 1) % 2 ^ 64 = (joinArgs args).length + 1 :=
    Nat.mod_eq_of_lt hsize
  unfold main
  rw [if_neg hlen, mainInput_spec prog args junk hz hsize]
  rw [Option.bind_eq_bind, Option.some_bind, hstr, Option.bind_eq_bind, Option.some_bind,
    hmod, htake]
  dsimp only
  generalize sha_256 (joinArgs args ++ [0]) ((joinArgs args).length + 1) = r
  cases r with
  | none => exact rfl
  | some output => exact rfl

/-- Claim C14: for every list of command-line arguments `a1..ak` (`argv[1..k]`, C strings, of a
total size a `size_t` can hold), the `strsize` that `main` allocates is the length of the joined
string plus 1, the buffer `input` ends up holding `a1`, ..., `ak` joined with exactly one space
between consecutive arguments and none at either end, followed by the terminator, with no
write outside the allocation; and the call is `sha_256(input, strlen(input) + 1)` on that
string, after which `main` prints the digest and returns 0. -/
theorem main_joins_arguments (prog : List Nat) (args : List (List Nat)) (junk : List Nat)
    (hz : ∀ a ∈ args, 0 ∉ a) (hsize : (joinArgs args).length + 1 < 2 ^ 64) :
    mainStrsize (prog :: args) = some ((joinArgs args).length + 1) ∧
    mainInput (prog :: args) junk = some (joinArgs args ++ [0]) ∧
    strlen (joinArgs args ++ [0]) = some (joinArgs args).length ∧
    main (prog :: args) junk =
      (sha_256 (joinArgs args ++ [0]) ((joinArgs args).length + 1)).map
        (fun output =>
          ([Event.printf (bytesOf "\nInput: " ++ joinArgs args ++ bytesOf "\n"),
            Event.sha_256 (joinArgs args ++ [0]) ((joinArgs args).length + 1),
            Event.printf (bytesOf "\nSHA-265 Digest : " ++ bytesOf output ++ bytesOf "\n")],
           0)) ∧
    (64 * (((joinArgs args).length + 1 + 8 + 63) / 64) ≤ 2 ^ 31 - 1 →
      ∃ output, sha_256 (joinArgs args ++ [0]) ((joinArgs args).length + 1) = some output) ∧
    (∀ a : List Nat, joinArgs [a] = a) ∧
    (∀ (a b : List Nat) (rest : List (List Nat)),
      joinArgs (a :: b :: rest) = a ++ bytesOf " " ++ joinArgs (b :: rest)) := by
  refine ⟨mainStrsize_spec prog args hz hsize, mainInput_spec prog args junk hz hsize,
    strlen_spec (joinArgs args) [] (joinArgs_zero_free args hz),
    main_spec prog args junk hz hsize, ?_, joinArgs_singleton, joinArgs_cons_cons⟩
  intro hfit
  exact ⟨_, sha_256_eq_ref (joinArgs args ++ [0]) ((joinArgs args).length + 1) (by omega)
    (by simp) hfit⟩

/-- Witness of C14 at the arguments `ab` and `c`. -/
theorem main_joins_arguments_witness :
    (∀ a ∈ [[97, 98], [99]], 0 ∉ a) ∧ (joinArgs [[97, 98], [99]]).length + 1 < 2 ^ 64 ∧
    (mainStrsize ([46] :: [[97, 98], [99]]) = some ((joinArgs [[97, 98], [99]]).length + 1) ∧
    mainInput ([46] :: [[97, 98], [99]]) [] = some (joinArgs [[97, 98], [99]] ++ [0]) ∧
    strlen (joinArgs [[97, 98], [99]] ++ [0]) = some (joinArgs [[97, 98], [99]]).length ∧
    main ([46] :: [[97, 98], [99]]) [] =
      (sha_256 (joinArgs [[97, 98], [99]] ++ [0]) ((joinArgs [[97, 98], [99]]).length + 1)).map
        (fun output =>
          ([Event.printf (bytesOf "\nInput: " ++ joinArgs [[97, 98], [99]] ++ bytesOf "\n"),
            Event.sha_256 (joinArgs [[97, 98], [99]] ++ [0])
              ((joinArgs [[97, 98], [99]]).length + 1),
            Event.printf (bytesOf "\nSHA-265 Digest : " ++ bytesOf output ++ bytesOf "\n")],
           0)) ∧
    (64 * (((joinArgs [[97, 98], [99]]).length + 1 + 8 + 63) / 64) ≤ 2 ^ 31 - 1 →
      ∃ output, sha_256 (joinArgs [[97, 98], [99]] ++ [0])
        ((joinArgs [[97, 98], [99]]).length + 1) = some output) ∧
    (∀ a : List Nat, joinArgs [a] = a) ∧
    (∀ (a b : List Nat) (rest : List (List Nat)),
      joinArgs (a :: b :: rest) = a ++ bytesOf " " ++ joinArgs (b :: rest))) :=
  ⟨by decide, by decide, main_joins_arguments [46] [[97, 98], [99]] [] (by decide) (by decide)⟩

theorem sha_256_of_terminator :
    sha_256 [0] 1 = some "e3b0c44298fc1c149afbf4c8996fb92427ae41e4649b934ca495991b7852b855" := by
  decide!

/-- Claim C15, on the code: invoked with the program name only (`argc = 1`), `main` is not a
no-op. The guard `argc < 1` holds for an empty `argv` alone; with `argc = 1` the run allocates
one byte, prints the `Input:` line, calls `sha_256` on the empty string with `n = 1`, prints the
digest of the empty message, and returns 0. -/
theorem main_without_arguments (prog junk : List Nat) :
    main [prog] junk = some
      ([Event.printf (bytesOf "\nInput: \n"),
        Event.sha_256 [0] 1,
        Event.printf (bytesOf
          "\nSHA-265 Digest : e3b0c44298fc1c149afbf4c8996fb92427ae41e4649b934ca495991b7852b855\n")],
       0) ∧
    main [prog] junk ≠ some ([], 0) ∧
    mainStrsize [prog] = some 1 ∧
    main [] junk = some ([], 0) := by
  have h := main_spec prog [] junk (by simp) (by decide)
  have hj : joinArgs [] = [] := rfl
  rw [hj] at h
  have hs : sha_256 ([] ++ [0]) (([] : List Nat).length + 1)
      = some "e3b0c44298fc1c149afbf4c8996fb92427ae41e4649b934ca495991b7852b855" :=
    sha_256_of_terminator
  rw [hs] at h
  have hm : main [prog] junk = some
      ([Event.printf (bytesOf "\nInput: \n"),
        Event.sha_256 [0] 1,
        Event.printf (bytesOf
          "\nSHA-265 Digest : e3b0c44298fc1c149afbf4c8996fb92427ae41e4649b934ca495991b7852b855\n")],
       0) := by
    rw [h]
    decide
  refine ⟨hm, ?_, ?_, rfl⟩
  · rw [hm]
    decide
  · exact mainStrsize_spec prog [] (by simp) (by decide)

end Sha256
